import Mathlib

/-!
# Verification of the extmark-manager reconciliation engine

This file gives a shallow embedding, in Lean 4, of the merge algorithms of
`src/components/data-handler.js`:

* `mergeExtensionLists` (the Record Reconciler),
* `mergeBookmarkTrees` / its inner `mergeNodes` (the Tree Reconciler),
* `diffById` (the backup change summary),
* `bookmarksToHtml` (the Netscape bookmark HTML serializer),

together with theorems settling the specification claims about them.

JavaScript values are translated as follows: a possibly-absent string field
(`undefined`/`null`) becomes `Option String`; JavaScript truthiness of a
string field (`undefined`, `null` and `""` are falsy) is the predicate
`truthy`; fallible code (paths of the source that throw a `TypeError`)
returns `Except String _`; the two `Map` objects of `mergeExtensionLists`
become association lists with JavaScript `Map` semantics (`mset` shadows,
`mdel` removes every binding of the key, `mget` reads the newest binding).
-/

namespace Extmark

/-- JavaScript truthiness of an optional string field: `undefined`/`null`
(`none`) and the empty string are falsy. -/
def truthy : Option String → Bool
  | none => false
  | some s => s ≠ ""

/-- The underlying string of an optional field (only meaningful when the
field is `truthy`). -/
def strOf : Option String → String
  | none => ""
  | some s => s

/-- An extension record: the four fields the merge treats specially, plus
the remaining opaque fields as an association list (a JSON object holds no
`undefined`-valued keys, so key presence models definedness). -/
structure Ext where
  id : Option String
  name : Option String
  homepageUrl : Option String
  updateUrl : Option String
  others : List (String × String)
deriving DecidableEq, Repr

/-- Key lookup in a JavaScript object (first binding wins). -/
def lookupKV (l : List (String × String)) (k : String) : Option String :=
  (l.find? (fun kv => kv.1 = k)).map (fun kv => kv.2)

/-- The opaque-field part of the record merge of `mergeExtensionLists`
(lines 564-585): start from the base record's fields, overwrite each with
the preferred record's value when that key is defined there, and append the
preferred record's keys that the base lacks. -/
def mergeOthers (b p : List (String × String)) : List (String × String) :=
  b.map (fun kv => (kv.1, (lookupKV p kv.1).getD kv.2)) ++
    p.filter (fun kv => (lookupKV b kv.1).isNone)

/-- The record unification step of `mergeExtensionLists` (lines 561-585):
`id` is `preferred.id || base.id`; `name` and `updateUrl` take the
preferred value whenever it is not `undefined`/`null` (an empty string is
taken); `homepageUrl` additionally requires the preferred value to be
non-empty; opaque fields follow `mergeOthers`. -/
def mergeTwo (b p : Ext) : Ext where
  id := if truthy p.id then p.id else b.id
  name := match p.name with
    | some s => some s
    | none => b.name
  homepageUrl := if truthy p.homepageUrl then p.homepageUrl else b.homepageUrl
  updateUrl := match p.updateUrl with
    | some s => some s
    | none => b.updateUrl
  others := mergeOthers b.others p.others

/-- The identity key of a record as used by the `idToIndexMap` lookups:
present and non-empty, else no key (`currentExtCopy.id ? ... : undefined`). -/
def idKey (e : Ext) : Option String :=
  if truthy e.id then some (strOf e.id) else none

/-- The homepage key of a record as used by the `urlToIndexMap` lookups
(`currentExtCopy.homepageUrl && currentExtCopy.homepageUrl !== ""`). -/
def urlKey (e : Ext) : Option String :=
  if truthy e.homepageUrl then some (strOf e.homepageUrl) else none

/-- Read a JavaScript `Map`: newest binding of the key, if any. -/
def mget (m : List (String × Nat)) (k : String) : Option Nat :=
  (m.find? (fun kv => kv.1 = k)).map (fun kv => kv.2)

/-- `Map.set`: the new binding shadows any older one. -/
def mset (m : List (String × Nat)) (k : String) (v : Nat) : List (String × Nat) :=
  (k, v) :: m

/-- `Map.delete`: every binding of the key disappears. -/
def mdel : List (String × Nat) → String → List (String × Nat)
  | [], _ => []
  | kv :: m, k => if kv.1 = k then mdel m k else kv :: mdel m k

/-- The first index-map update block run after writing a merged record back
into its slot (lines 590-606 for `idToIndexMap`, 608-619 for
`urlToIndexMap`): when the key changed or is not yet indexed at this slot,
drop the old key's binding (if it pointed here) and index the new key. -/
def updKeyMap1 (m : List (String × Nat)) (oldK newK : Option String) (i : Nat) :
    List (String × Nat) :=
  if oldK ≠ newK ∨ (truthy newK ∧ mget m (strOf newK) ≠ some i) then
    if truthy newK then
      mset (if truthy oldK ∧ mget m (strOf oldK) = some i then
        mdel m (strOf oldK) else m) (strOf newK) i
    else
      (if truthy oldK ∧ mget m (strOf oldK) = some i then
        mdel m (strOf oldK) else m)
  else m

/-- The second update block (lines 622-628): re-register a key gained by a
slot that previously lacked one. -/
def updKeyMap2 (m1 : List (String × Nat)) (oldK newK : Option String) (i : Nat) :
    List (String × Nat) :=
  if ¬ truthy oldK ∧ truthy newK ∧ mget m1 (strOf newK) ≠ some i then
    mset m1 (strOf newK) i
  else m1

/-- The full index-map update of `mergeExtensionLists` after a merge
(lines 589-628); the same code shape runs once for `idToIndexMap` (with
`oldId`/`mergedExt.id`) and once for `urlToIndexMap` (with
`oldUrl`/`mergedExt.homepageUrl`). -/
def updKeyMap (m : List (String × Nat)) (oldK newK : Option String) (i : Nat) :
    List (String × Nat) :=
  updKeyMap2 (updKeyMap1 m oldK newK i) oldK newK i

/-- The running state of `mergeExtensionLists`: the result array and the two
index maps. -/
structure MState where
  res : List Ext
  idMap : List (String × Nat)
  urlMap : List (String × Nat)
deriving Repr

/-- Append an unmatched record as a new result entry and register its keys
(lines 631-640). -/
def pushNew (st : MState) (cur : Ext) : MState :=
  let n := st.res.length
  { res := st.res ++ [cur]
    idMap := match idKey cur with
      | some k => mset st.idMap k n
      | none => st.idMap
    urlMap := match urlKey cur with
      | some k => mset st.urlMap k n
      | none => st.urlMap }

/-- One iteration of the `forEach` of `mergeExtensionLists` (lines 532-641):
look a slot up by id first, then by homepage URL; merge into the slot when
one is found (the record from `listB` is the preferred side), else append.
The `else` branch is also taken when the looked-up index holds no record
(`if (targetExtRef)` with an undefined array element). -/
def stepExt (isB : Bool) (st : MState) (cur : Ext) : MState :=
  let idIdx : Option Nat := match idKey cur with
    | some k => mget st.idMap k
    | none => none
  let urlIdx : Option Nat := match urlKey cur with
    | some k => mget st.urlMap k
    | none => none
  match (match idIdx with | some i => some i | none => urlIdx) with
  | some i =>
    match st.res.get? i with
    | some tgt =>
      let baseE := if isB then tgt else cur
      let prefE := if isB then cur else tgt
      let m := mergeTwo baseE prefE
      { res := st.res.set i m
        idMap := updKeyMap st.idMap tgt.id m.id i
        urlMap := updKeyMap st.urlMap tgt.homepageUrl m.homepageUrl i }
    | none => pushNew st cur
  | none => pushNew st cur

/-- A raw entry of an input array: a proper record, or a value the
`filter(e => e && typeof e === 'object')` guard drops. -/
inductive ExtEntry where
  | obj (e : Ext)
  | nonObj
deriving DecidableEq, Repr

/-- A raw argument of `mergeExtensionLists`: an array, or any non-array
value (`Array.isArray` fails). -/
inductive EInput where
  | arr (l : List ExtEntry)
  | nonArr
deriving DecidableEq, Repr

/-- Lines 525-526: a non-array argument becomes `[]`, and non-object
entries are filtered out. -/
def normalizeE : EInput → List Ext
  | .arr l => l.filterMap (fun e => match e with | .obj r => some r | .nonObj => none)
  | .nonArr => []

/-- The core single pass of `mergeExtensionLists` over `[...L_A, ...L_B]`,
with `isFromListB` true exactly on the second part. -/
def mergeExtensionCore (la lb : List Ext) : MState :=
  lb.foldl (stepExt true) (la.foldl (stepExt false) ⟨[], [], []⟩)

/-- `mergeExtensionLists` (data-handler.js lines 524-644). -/
def mergeExtensionLists (a b : EInput) : List Ext :=
  (mergeExtensionCore (normalizeE a) (normalizeE b)).res

end Extmark

namespace Extmark

/-- A bookmark node of the data model: a leaf carries a `url`, a folder
carries `children`.  `id` and `dateAdded` ride along unchanged. -/
inductive BNode where
  | leaf (id : Option String) (title : String) (url : String) (dateAdded : Option Nat)
  | folder (id : Option String) (title : String) (children : List BNode)
      (dateAdded : Option Nat)
deriving Repr

/-- `isDuplicateBookmark` (lines 388-394): some node of the target has a
truthy `url` equal to the incoming node's truthy `url` and the same title.
Folders carry no `url`, so only leaves can witness the duplicate. -/
def isDuplicateBookmark (target : List BNode) (ti u : String) : Bool :=
  target.any (fun t => match t with
    | .leaf _ tti tu _ => tu ≠ "" && u ≠ "" && tu = u && tti = ti
    | .folder _ _ _ _ => false)

/-- The `target.find(t => t.children && t.title === srcNodeCopy.title)`
predicate: a folder (its `children` array is truthy even when empty) with
exactly the source's title. -/
def isFolderTitled (ti : String) : BNode → Bool
  | .leaf _ _ _ _ => false
  | .folder _ fti _ _ => fti = ti

/-- `mergeNodes` (lines 405-434), the recursive worker of
`mergeBookmarkTrees`, processing the source nodes in order against the
accumulated target:

* an incoming folder matching a target folder of the same title has the
  target folder's children replaced wholesale when the title is
  `'Bookmarks Bar'`, and recursively merged (with the title reassigned to
  the incoming spelling) otherwise;
* an unmatched incoming folder is appended;
* an incoming leaf is appended unless `isDuplicateBookmark` holds. -/
def mergeNodes : List BNode → List BNode → List BNode
  | t, [] => t
  | t, x :: s =>
    let t' := match x with
      | .leaf xid xti xu xd =>
        if isDuplicateBookmark t xti xu then t else t ++ [.leaf xid xti xu xd]
      | .folder xid xti xch xd =>
        match t.findIdx? (isFolderTitled xti) with
        | some i =>
          match t.get? i with
          | some (.folder fid fti fch fda) =>
            if xti = "Bookmarks Bar" then t.set i (.folder fid fti xch fda)
            else t.set i (.folder fid xti (mergeNodes fch xch) fda)
          | _ => t
        | none => t ++ [.folder xid xti xch xd]
    mergeNodes t' s

/-- Processing one source node (the body of the `for` loop of
`mergeNodes`). -/
def mergeNode1 (t : List BNode) (x : BNode) : List BNode :=
  mergeNodes t [x]

/-- `mergeBookmarkTrees` (lines 383-438) on well-typed array inputs: clone
the base and fold the incoming nodes into it. -/
def mergeBookmarkTrees (la lb : List BNode) : List BNode :=
  mergeNodes la lb

end Extmark

namespace Extmark

/-- A raw argument of `mergeBookmarkTrees`: an array of nodes, or the
non-array value `null` (which, unlike a missing argument, does not trigger
the `= []` default parameter). -/
inductive BInput where
  | arr (l : List BNode)
  | jnull
deriving Repr

/-- `mergeBookmarkTrees` on raw JavaScript arguments (lines 383-438),
with the source's failure behaviour made explicit.  `JSON.parse
(JSON.stringify(listA))` clones `null` to `null`; `for (const srcNode of
listB)` throws a `TypeError` when `listB` is `null`; and processing any
source node against a `null` target throws (`null.find` / `null.some`). -/
def mergeBookmarkTreesJ : BInput → BInput → Except String BInput
  | _, .jnull => .error "TypeError: listB is not iterable"
  | .arr la, .arr lb => .ok (.arr (mergeNodes la lb))
  | .jnull, .arr lb =>
    match lb with
    | [] => .ok .jnull
    | .folder _ _ _ _ :: _ => .error "TypeError: null.find is not a function"
    | .leaf _ _ _ _ :: _ => .error "TypeError: null.some is not a function"

/-- An item fed to `diffById`: only its `id` is ever read (a flattened
bookmark or an extension record; `item.id` may be `undefined`). -/
structure DItem where
  id : Option String
  payload : String
deriving DecidableEq, Repr

/-- JavaScript `new Set(xs)` as an insertion-ordered deduplicated list
(first occurrence kept). -/
def jsSetOf (l : List (Option String)) : List (Option String) :=
  go [] l
where
  go (seen : List (Option String)) : List (Option String) → List (Option String)
    | [] => []
    | x :: xs => if x ∈ seen then go seen xs else x :: go (x :: seen) xs

/-- `diffById` (lines 1181-1187): build the two id sets, count the ids of
`currentArr` missing from `prevArr` and conversely. -/
def diffById (currentArr prevArr : List DItem) : Nat × Nat :=
  let currentIds := jsSetOf (currentArr.map (fun item => item.id))
  let prevIds := jsSetOf (prevArr.map (fun item => item.id))
  let added := currentIds.filter (fun i => !(prevIds.contains i))
  let removed := prevIds.filter (fun i => !(currentIds.contains i))
  (added.length, removed.length)

/-- Entity-escape `&`, `<` and `>`.  The source chains three global
`String.replace` passes (`&` first, then `<`, then `>`); since the
replacement texts introduce no character that a later pass rewrites beyond
the `&` already handled, the chain acts as this single character map. -/
def escapeHtml (s : String) : String :=
  String.mk (s.data.foldr (fun c acc =>
    (if c = '&' then "&amp;".data
     else if c = '<' then "&lt;".data
     else if c = '>' then "&gt;".data
     else [c]) ++ acc) [])

/-- The `ADD_DATE` value: `node.dateAdded ? Math.floor(node.dateAdded /
1000) : Math.floor(Date.now() / 1000)`.  `Date.now()` is passed in as
`now` (already in seconds); a `dateAdded` of `0` is falsy in JavaScript
and therefore also yields `now`. -/
def addDateOf (now : Nat) : Option Nat → Nat
  | some d => if d = 0 then now else d / 1000
  | none => now

/-- `'  '.repeat(depth)`. -/
def indentOf (depth : Nat) : String :=
  String.join (List.replicate depth "  ")

/-- The per-node lines of `bookmarksToHtml` (lines 667-691), before the
final `join('\n')`:

* a node with a truthy `url` yields one `<DT><A ...>` line (title falling
  back to `"Bookmark"` when empty);
* a node with `children` and a truthy `title` yields a
  `<DT><H3 ...></H3>` line plus an indented `<DL><p> ... </DL><p>` block
  holding the recursively rendered children;
* anything else (here: a leaf with an empty `url`, or an untitled folder)
  contributes the empty string. -/
def htmlLines (now : Nat) : List BNode → Nat → List String
  | [], _ => []
  | x :: s, depth =>
    (match x with
      | .leaf _ ti u d =>
        if u = "" then ""
        else
          indentOf depth ++ "<DT><A HREF=\"" ++ u ++ "\" ADD_DATE=\"" ++
            toString (addDateOf now d) ++ "\">" ++
            (if ti = "" then "Bookmark" else escapeHtml ti) ++ "</A>"
      | .folder _ ti ch d =>
        if ti = "" then ""
        else
          indentOf depth ++ "<DT><H3 ADD_DATE=\"" ++ toString (addDateOf now d) ++
            "\">" ++ escapeHtml ti ++ "</H3>\n" ++ indentOf depth ++ "<DL><p>\n" ++
            String.intercalate "\n" (htmlLines now ch (depth + 1)) ++ "\n" ++
            indentOf depth ++ "</DL><p>") :: htmlLines now s depth

/-- `bookmarksToHtml(nodes, depth = 1)`. -/
def bookmarksToHtml (now : Nat) (nodes : List BNode) (depth : Nat) : String :=
  String.intercalate "\n" (htmlLines now nodes depth)

/-- Count the occurrences (overlapping included) of a non-empty pattern in
a character list. -/
def countOcc (pat : List Char) : List Char → Nat
  | [] => if pat.isEmpty then 1 else 0
  | s@(_ :: rest) => (if pat.isPrefixOf s then 1 else 0) + countOcc pat rest

/-- Occurrences of `pat` inside `s`. -/
def countSub (s pat : String) : Nat :=
  countOcc pat.data s.data

end Extmark

namespace Extmark

theorem jsSetOf_go_mem (l : List (Option String)) :
    ∀ seen x, x ∈ jsSetOf.go seen l ↔ (x ∈ l ∧ x ∉ seen) := by
  induction l with
  | nil => intro seen x; simp [jsSetOf.go]
  | cons y ys ih =>
    intro seen x
    simp only [jsSetOf.go]
    split <;> rename_i hy
    · rw [ih]
      simp only [List.mem_cons]
      constructor
      · rintro ⟨h1, h2⟩
        exact ⟨Or.inr h1, h2⟩
      · rintro ⟨h1 | h1, h2⟩
        · exact absurd (h1 ▸ hy) h2
        · exact ⟨h1, h2⟩
    · simp only [List.mem_cons, ih]
      constructor
      · rintro (rfl | ⟨h1, h2⟩)
        · exact ⟨Or.inl rfl, hy⟩
        · exact ⟨Or.inr h1, fun hs => h2 (Or.inr hs)⟩
      · rintro ⟨hmem, h2⟩
        by_cases hxy : x = y
        · exact Or.inl hxy
        · rcases hmem with rfl | h1
          · exact absurd rfl hxy
          · exact Or.inr ⟨h1, fun hs => hs.elim hxy h2⟩

theorem jsSetOf_go_nodup (l : List (Option String)) :
    ∀ seen, (jsSetOf.go seen l).Nodup := by
  induction l with
  | nil => intro seen; simp [jsSetOf.go]
  | cons y ys ih =>
    intro seen
    simp only [jsSetOf.go]
    split <;> rename_i hy
    · exact ih seen
    · refine List.nodup_cons.mpr ⟨fun hmem => ?_, ih _⟩
      exact ((jsSetOf_go_mem ys _ y).mp hmem).2 (List.mem_cons_self _ _)

theorem mem_jsSetOf (l : List (Option String)) (x : Option String) :
    x ∈ jsSetOf l ↔ x ∈ l := by
  have := jsSetOf_go_mem l [] x
  simpa [jsSetOf] using this

theorem jsSetOf_nodup (l : List (Option String)) : (jsSetOf l).Nodup :=
  jsSetOf_go_nodup l []

theorem jsSetOf_toFinset (l : List (Option String)) :
    (jsSetOf l).toFinset = l.toFinset := by
  ext x
  simp [mem_jsSetOf]

/-- The length of the `added` (or `removed`) filter is the cardinality of
the corresponding set difference. -/
theorem diffSide_card (c p : List (Option String)) :
    ((jsSetOf c).filter (fun i => !((jsSetOf p).contains i))).length =
      (c.toFinset \ p.toFinset).card := by
  have hnd : ((jsSetOf c).filter (fun i => !((jsSetOf p).contains i))).Nodup :=
    (jsSetOf_nodup c).filter _
  rw [← List.toFinset_card_of_nodup hnd, List.toFinset_filter]
  congr 1
  rw [jsSetOf_toFinset]
  ext x
  simp [Finset.mem_filter, mem_jsSetOf, List.contains, List.elem_iff]

end Extmark

namespace Extmark

/-- **C8**: for all record lists, `diffById` returns `addedCount` equal to
the number of ids occurring in `current` but not in `prev`, and
`removedCount` conversely; the result depends only on the two id sets, so
it is unchanged under permutation or duplication of either input list. -/
theorem spec_C8 (current prev : List DItem) :
    (diffById current prev).1 =
      ((current.map DItem.id).toFinset \ (prev.map DItem.id).toFinset).card ∧
    (diffById current prev).2 =
      ((prev.map DItem.id).toFinset \ (current.map DItem.id).toFinset).card ∧
    (∀ c' p' : List DItem,
      (∀ x, x ∈ current.map DItem.id ↔ x ∈ c'.map DItem.id) →
      (∀ x, x ∈ prev.map DItem.id ↔ x ∈ p'.map DItem.id) →
      diffById current prev = diffById c' p') := by
  have hpair : ∀ c p : List DItem,
      diffById c p =
        (((c.map DItem.id).toFinset \ (p.map DItem.id).toFinset).card,
         ((p.map DItem.id).toFinset \ (c.map DItem.id).toFinset).card) := by
    intro c p
    have h1 := diffSide_card (c.map DItem.id) (p.map DItem.id)
    have h2 := diffSide_card (p.map DItem.id) (c.map DItem.id)
    simp only [diffById]
    exact Prod.ext h1 h2
  refine ⟨by rw [hpair], by rw [hpair], ?_⟩
  intro c' p' hc hp
  rw [hpair, hpair]
  have hcf : (current.map DItem.id).toFinset = (c'.map DItem.id).toFinset := by
    ext x; simpa using hc x
  have hpf : (prev.map DItem.id).toFinset = (p'.map DItem.id).toFinset := by
    ext x; simpa using hp x
  rw [hcf, hpf]

/-- Witness for `spec_C8` at concrete inputs: adding a duplicate of an
existing record changes nothing, and the counts evaluate. -/
theorem spec_C8_witness :
    (diffById [⟨some "a", "x"⟩, ⟨some "a", "z"⟩] [⟨some "b", "y"⟩]).1 =
      (([⟨some "a", "x"⟩, ⟨some "a", "z"⟩].map DItem.id).toFinset \
        ([(⟨some "b", "y"⟩ : DItem)].map DItem.id).toFinset).card ∧
    diffById [⟨some "a", "x"⟩] [⟨some "b", "y"⟩] =
      diffById [⟨some "a", "x"⟩, ⟨some "a", "z"⟩] [⟨some "b", "y"⟩] ∧
    diffById [⟨some "a", "x"⟩] [⟨some "b", "y"⟩] = (1, 1) := by
  refine ⟨(spec_C8 _ _).1, ?_, by decide⟩
  exact (spec_C8 [⟨some "a", "x"⟩] [⟨some "b", "y"⟩]).2.2 _ _ (by simp) (by simp)

end Extmark

namespace Extmark

theorem intercalate_singleton (sep a : String) : String.intercalate sep [a] = a := by
  simp [String.intercalate, String.intercalate.go]

theorem intercalate_pair (sep a b : String) :
    String.intercalate sep [a, b] = a ++ sep ++ b := by
  simp [String.intercalate, String.intercalate.go]

/-- One character's replacement under the entity escape never contains a
raw `<` or `>`. -/
theorem repl_no_raw (c x : Char) (hx : x = '<' ∨ x = '>') :
    x ∉ (if c = '&' then "&amp;".data
         else if c = '<' then "&lt;".data
         else if c = '>' then "&gt;".data
         else [c]) := by
  split <;> rename_i h1
  · rcases hx with rfl | rfl <;> decide
  · split <;> rename_i h2
    · rcases hx with rfl | rfl <;> decide
    · split <;> rename_i h3
      · rcases hx with rfl | rfl <;> decide
      · intro hh
        have hxc := List.mem_singleton.mp hh
        rcases hx with rfl | rfl
        · exact h2 hxc.symm
        · exact h3 hxc.symm

/-- No raw `<` or `>` survives entity escaping. -/
theorem escapeHtml_no_raw (s : String) :
    '<' ∉ (escapeHtml s).data ∧ '>' ∉ (escapeHtml s).data := by
  simp only [escapeHtml]
  induction s.data with
  | nil => simp
  | cons c cs ih =>
    simp only [List.foldr_cons]
    constructor
    · intro hmem
      rcases List.mem_append.mp hmem with h | h
      · exact repl_no_raw c '<' (Or.inl rfl) h
      · exact ih.1 h
    · intro hmem
      rcases List.mem_append.mp hmem with h | h
      · exact repl_no_raw c '>' (Or.inr rfl) h
      · exact ih.2 h

/-- **C9** (amended): rendering one folder with two leaves produces the
one-`<DT><H3>` block holding exactly the two `<DT><A HREF=...>` lines;
`ADD_DATE` is the node's `dateAdded` divided by 1000 when that is present
and non-zero, and the current time when it is absent (or zero, which is
falsy); `&`, `<`, `>` in titles are entity-escaped. -/
theorem spec_C9 (now : Nat) (fid : Option String) (ft : String) (fd : Option Nat)
    (i1 i2 : Option String) (t1 u1 t2 u2 : String) (d1 d2 : Option Nat)
    (hft : ft ≠ "") (ht1 : t1 ≠ "") (ht2 : t2 ≠ "") (hu1 : u1 ≠ "") (hu2 : u2 ≠ "") :
    bookmarksToHtml now [.folder fid ft [.leaf i1 t1 u1 d1, .leaf i2 t2 u2 d2] fd] 1 =
      indentOf 1 ++ "<DT><H3 ADD_DATE=\"" ++ toString (addDateOf now fd) ++ "\">" ++
        escapeHtml ft ++ "</H3>\n" ++ indentOf 1 ++ "<DL><p>\n" ++
        ((indentOf 2 ++ "<DT><A HREF=\"" ++ u1 ++ "\" ADD_DATE=\"" ++
            toString (addDateOf now d1) ++ "\">" ++ escapeHtml t1 ++ "</A>") ++ "\n" ++
         (indentOf 2 ++ "<DT><A HREF=\"" ++ u2 ++ "\" ADD_DATE=\"" ++
            toString (addDateOf now d2) ++ "\">" ++ escapeHtml t2 ++ "</A>")) ++ "\n" ++
        indentOf 1 ++ "</DL><p>" ∧
    (∀ d : Nat, d ≠ 0 → addDateOf now (some d) = d / 1000) ∧
    addDateOf now none = now ∧
    ('<' ∉ (escapeHtml ft).data ∧ '>' ∉ (escapeHtml ft).data) := by
  refine ⟨?_, ?_, rfl, escapeHtml_no_raw ft⟩
  · simp only [bookmarksToHtml, htmlLines, if_neg hft, if_neg ht1, if_neg ht2,
      if_neg hu1, if_neg hu2, intercalate_singleton, intercalate_pair]
  · intro d hd
    simp [addDateOf, hd]

/-- **C9 counterexample**: a leaf whose `dateAdded` is `0` renders with the
current time (`99`), not with `0/1000 = 0` as the claim's reading of
"derived from the node's dateAdded" requires; `0` is falsy in the source's
`node.dateAdded ? ... : ...` test. -/
theorem spec_C9_counterexample :
    bookmarksToHtml 99 [.leaf none "A" "u" (some 0)] 1 =
      "  <DT><A HREF=\"u\" ADD_DATE=\"99\">A</A>" ∧
    "  <DT><A HREF=\"u\" ADD_DATE=\"99\">A</A>" ≠
      "  <DT><A HREF=\"u\" ADD_DATE=\"0\">A</A>" := by
  constructor
  · simp only [bookmarksToHtml, htmlLines, addDateOf, intercalate_singleton]
    rfl
  · decide

set_option maxRecDepth 10000 in
/-- Witness for `spec_C9`: the rendered output at concrete inputs, with the
two-leaf, one-block counts evaluated on it. -/
theorem spec_C9_witness :
    bookmarksToHtml 99 [.folder none "F&1"
        [.leaf none "A" "http://a" (some 5000), .leaf none "B<c>" "http://b" none]
        none] 1 =
      "  <DT><H3 ADD_DATE=\"99\">F&amp;1</H3>\n  <DL><p>\n    <DT><A HREF=\"http://a\" ADD_DATE=\"5\">A</A>\n    <DT><A HREF=\"http://b\" ADD_DATE=\"99\">B&lt;c&gt;</A>\n  </DL><p>" ∧
    countSub "  <DT><H3 ADD_DATE=\"99\">F&amp;1</H3>\n  <DL><p>\n    <DT><A HREF=\"http://a\" ADD_DATE=\"5\">A</A>\n    <DT><A HREF=\"http://b\" ADD_DATE=\"99\">B&lt;c&gt;</A>\n  </DL><p>" "<DT><A HREF=" = 2 ∧
    countSub "  <DT><H3 ADD_DATE=\"99\">F&amp;1</H3>\n  <DL><p>\n    <DT><A HREF=\"http://a\" ADD_DATE=\"5\">A</A>\n    <DT><A HREF=\"http://b\" ADD_DATE=\"99\">B&lt;c&gt;</A>\n  </DL><p>" "<DT><H3" = 1 := by
  refine ⟨?_, by decide, by decide⟩
  have h := (spec_C9 99 none "F&1" none none none "A" "http://a" "B<c>" "http://b"
    (some 5000) none (by decide) (by decide) (by decide) (by decide) (by decide)).1
  rw [h]
  rfl

end Extmark

namespace Extmark

/-- **C2** (amended): `mergeExtensionLists` treats a non-array argument as
the empty list and always returns normally; `mergeBookmarkTrees` does not
degrade gracefully: a `null` incoming list always raises a `TypeError`, a
`null` base raises as soon as a source node is processed, and a `null`
base with an empty incoming list is returned as `null`, not as the
empty-list result. -/
theorem spec_C2 :
    (∀ b : EInput, mergeExtensionLists .nonArr b = mergeExtensionLists (.arr []) b) ∧
    (∀ a : EInput, mergeExtensionLists a .nonArr = mergeExtensionLists a (.arr [])) ∧
    (∀ a : BInput, mergeBookmarkTreesJ a .jnull =
      .error "TypeError: listB is not iterable") ∧
    (∀ l : List BNode, l ≠ [] →
      ∃ msg, mergeBookmarkTreesJ .jnull (.arr l) = .error msg) ∧
    mergeBookmarkTreesJ .jnull (.arr []) = .ok .jnull := by
  refine ⟨fun b => rfl, fun a => rfl, fun a => ?_, fun l hl => ?_, rfl⟩
  · cases a <;> rfl
  · match l with
    | [] => exact absurd rfl hl
    | .leaf _ _ _ _ :: _ => exact ⟨_, rfl⟩
    | .folder _ _ _ _ :: _ => exact ⟨_, rfl⟩

/-- **C2 counterexample**: with base `[]` and incoming `null`,
`mergeBookmarkTrees` raises (`for...of null` is a `TypeError`) instead of
returning the empty-list result; with base `null` and incoming `[]` it
returns `null`, which is not the array `[]`. -/
theorem spec_C2_counterexample :
    mergeBookmarkTreesJ (.arr []) .jnull =
      .error "TypeError: listB is not iterable" ∧
    mergeBookmarkTreesJ .jnull (.arr []) = .ok .jnull ∧
    (Except.ok BInput.jnull : Except String BInput) ≠ .ok (.arr []) := by
  refine ⟨rfl, rfl, fun h => ?_⟩
  cases h

/-- Witness for `spec_C2`: a singleton incoming list against a `null` base
raises, while `mergeExtensionLists` on a non-array argument behaves as on
`[]`. -/
theorem spec_C2_witness :
    (∃ msg, mergeBookmarkTreesJ .jnull (.arr [.leaf none "A" "u" none]) =
      .error msg) ∧
    mergeExtensionLists .nonArr (.arr [.obj ⟨some "x", none, none, none, []⟩]) =
      mergeExtensionLists (.arr []) (.arr [.obj ⟨some "x", none, none, none, []⟩]) := by
  refine ⟨spec_C2.2.2.2.1 _ (by simp), spec_C2.1 _⟩

end Extmark

namespace Extmark

theorem lookupKV_filter (p : List (String × String)) (q : String × String → Bool)
    (k : String) (hk : ∀ v, q (k, v) = true) :
    lookupKV (p.filter q) k = lookupKV p k := by
  induction p with
  | nil => rfl
  | cons kv p' ih =>
    by_cases hkey : kv.1 = k
    · have hq : q kv = true := by
        have : kv = (k, kv.2) := by
          cases kv
          simp_all
        rw [this]
        exact hk kv.2
      simp [List.filter_cons, hq, lookupKV, List.find?_cons, hkey]
    · by_cases hq : q kv = true
      · simpa [List.filter_cons, hq, lookupKV, List.find?_cons, hkey] using ih
      · simp only [List.filter_cons, Bool.not_eq_true] at hq ⊢
        rw [hq]
        simpa [lookupKV, List.find?_cons, hkey] using ih

theorem lookupKV_append (l1 l2 : List (String × String)) (k : String) :
    lookupKV (l1 ++ l2) k =
      match lookupKV l1 k with
      | some v => some v
      | none => lookupKV l2 k := by
  induction l1 with
  | nil => simp [lookupKV]
  | cons kv l1' ih =>
    by_cases hkey : kv.1 = k
    · simp [lookupKV, List.find?_cons, hkey]
    · simpa [lookupKV, List.find?_cons, hkey] using ih

theorem lookupKV_mapOverlay (b p : List (String × String)) (k : String) :
    lookupKV (b.map (fun kv => (kv.1, (lookupKV p kv.1).getD kv.2))) k =
      (lookupKV b k).map (fun v => (lookupKV p k).getD v) := by
  induction b with
  | nil => rfl
  | cons kv b' ih =>
    by_cases hkey : kv.1 = k
    · subst hkey
      simp [lookupKV, List.find?_cons]
    · simpa [lookupKV, List.find?_cons, hkey] using ih

/-- Per-key semantics of the opaque-field merge: the preferred side's value
when the key is defined there, else the base side's. -/
theorem lookupKV_mergeOthers (b p : List (String × String)) (k : String) :
    lookupKV (mergeOthers b p) k =
      match lookupKV p k with
      | some v => some v
      | none => lookupKV b k := by
  rw [mergeOthers, lookupKV_append, lookupKV_mapOverlay]
  cases hb : lookupKV b k with
  | some v =>
    simp only [Option.map_some']
    cases hp : lookupKV p k <;> simp [hp]
  | none =>
    simp only [Option.map_none']
    rw [lookupKV_filter]
    · cases hp : lookupKV p k <;> simp [hp]
    · intro v
      simp [hb]

end Extmark

namespace Extmark

theorem stepExt_on_empty (isB : Bool) (cur : Ext) :
    stepExt isB ⟨[], [], []⟩ cur = pushNew ⟨[], [], []⟩ cur := by
  simp only [stepExt]
  cases hk : idKey cur <;> cases hu : urlKey cur <;> simp [mget]

/-- **C3** (amended): when a base and an incoming record unify,
`id` takes the preferred side's value when present and non-empty, else the
base's; `name` and `updateUrl` take the preferred side's value whenever it
is present (`undefined`/`null` excluded, the empty string included), else
the base's; `homepageUrl` takes the preferred side's value when present
and non-empty, else the base's; every other field takes the preferred
side's value when defined, else the base's.  The two concrete scenarios of
the claim hold as stated. -/
theorem spec_C3 (b p : Ext) :
    (∀ s, p.id = some s → s ≠ "" → (mergeTwo b p).id = some s) ∧
    ((p.id = none ∨ p.id = some "") → (mergeTwo b p).id = b.id) ∧
    (∀ s, p.name = some s → (mergeTwo b p).name = some s) ∧
    (p.name = none → (mergeTwo b p).name = b.name) ∧
    (∀ s, p.homepageUrl = some s → s ≠ "" → (mergeTwo b p).homepageUrl = some s) ∧
    ((p.homepageUrl = none ∨ p.homepageUrl = some "") →
      (mergeTwo b p).homepageUrl = b.homepageUrl) ∧
    (∀ s, p.updateUrl = some s → (mergeTwo b p).updateUrl = some s) ∧
    (p.updateUrl = none → (mergeTwo b p).updateUrl = b.updateUrl) ∧
    (∀ k v, lookupKV p.others k = some v →
      lookupKV (mergeTwo b p).others k = some v) ∧
    (∀ k, lookupKV p.others k = none →
      lookupKV (mergeTwo b p).others k = lookupKV b.others k) ∧
    (∀ k, idKey b = some k → idKey p = some k →
      mergeExtensionLists (.arr [.obj b]) (.arr [.obj p]) = [mergeTwo b p]) ∧
    mergeExtensionLists (.arr [.obj ⟨some "x", some "Old", none, none, []⟩])
        (.arr [.obj ⟨some "x", some "New", none, none, []⟩]) =
      [⟨some "x", some "New", none, none, []⟩] ∧
    mergeExtensionLists (.arr [.obj ⟨some "1", none, some "http://x", none, []⟩])
        (.arr [.obj ⟨none, some "X", some "http://x", none, []⟩]) =
      [⟨some "1", some "X", some "http://x", none, []⟩] := by
  refine ⟨?_, ?_, ?_, ?_, ?_, ?_, ?_, ?_, ?_, ?_, ?_, by decide, by decide⟩
  · intro s hs hne
    simp [mergeTwo, truthy, hs, hne]
  · rintro (h | h) <;> simp [mergeTwo, truthy, h]
  · intro s hs
    simp [mergeTwo, hs]
  · intro h
    simp [mergeTwo, h]
  · intro s hs hne
    simp [mergeTwo, truthy, hs, hne]
  · rintro (h | h) <;> simp [mergeTwo, truthy, h]
  · intro s hs
    simp [mergeTwo, hs]
  · intro h
    simp [mergeTwo, h]
  · intro k v hv
    simp only [mergeTwo]
    rw [lookupKV_mergeOthers, hv]
  · intro k hv
    simp only [mergeTwo]
    rw [lookupKV_mergeOthers, hv]
  · intro k hbk hpk
    have h1 : mergeExtensionLists (.arr [.obj b]) (.arr [.obj p]) =
        (stepExt true (pushNew ⟨[], [], []⟩ b) p).res := by
      simp [mergeExtensionLists, normalizeE, mergeExtensionCore, stepExt_on_empty]
    rw [h1]
    have hid : (pushNew ⟨[], [], []⟩ b).idMap = [(k, 0)] := by
      simp [pushNew, hbk, mset]
    have hres : (pushNew ⟨[], [], []⟩ b).res = [b] := by
      simp [pushNew]
    simp only [stepExt, hpk, hid, hres, mget, List.find?_cons]
    simp [List.set]

end Extmark

namespace Extmark

/-- **C3 counterexample**: with base `{id:"x", name:"Old"}` and incoming
`{id:"x", name:""}`, the merged record's name is the empty string — the
source takes a present-but-empty preferred `name` — while the claim's
"present and non-empty, else the base's" rule demands `"Old"`. -/
theorem spec_C3_counterexample :
    mergeExtensionLists (.arr [.obj ⟨some "x", some "Old", none, none, []⟩])
        (.arr [.obj ⟨some "x", some "", none, none, []⟩]) =
      [⟨some "x", some "", none, none, []⟩] ∧
    (some "" : Option String) ≠ some "Old" := by
  exact ⟨by decide, by decide⟩

/-- Witness for `spec_C3` at concrete records: the preferred name wins, a
shared opaque key takes the preferred value, an unshared one falls back to
base, and the two records unify through `mergeExtensionLists` itself. -/
theorem spec_C3_witness :
    (mergeTwo ⟨some "x", some "Old", some "h", some "u", [("k1", "v1"), ("k2", "v2")]⟩
        ⟨some "x", some "New", none, none, [("k1", "w1"), ("k3", "w3")]⟩).name =
      some "New" ∧
    lookupKV (mergeTwo
        ⟨some "x", some "Old", some "h", some "u", [("k1", "v1"), ("k2", "v2")]⟩
        ⟨some "x", some "New", none, none, [("k1", "w1"), ("k3", "w3")]⟩).others "k1" =
      some "w1" ∧
    lookupKV (mergeTwo
        ⟨some "x", some "Old", some "h", some "u", [("k1", "v1"), ("k2", "v2")]⟩
        ⟨some "x", some "New", none, none, [("k1", "w1"), ("k3", "w3")]⟩).others "k2" =
      lookupKV [("k1", "v1"), ("k2", "v2")] "k2" ∧
    mergeExtensionLists
        (.arr [.obj ⟨some "x", some "Old", some "h", some "u", [("k1", "v1"), ("k2", "v2")]⟩])
        (.arr [.obj ⟨some "x", some "New", none, none, [("k1", "w1"), ("k3", "w3")]⟩]) =
      [mergeTwo ⟨some "x", some "Old", some "h", some "u", [("k1", "v1"), ("k2", "v2")]⟩
        ⟨some "x", some "New", none, none, [("k1", "w1"), ("k3", "w3")]⟩] := by
  refine ⟨(spec_C3 _ _).2.2.1 "New" rfl, ?_, ?_, ?_⟩
  · exact (spec_C3 _ _).2.2.2.2.2.2.2.2.1 "k1" "w1" (by decide)
  · exact (spec_C3 _ _).2.2.2.2.2.2.2.2.2.1 "k2" (by decide)
  · exact (spec_C3 _ _).2.2.2.2.2.2.2.2.2.2.1 "x" (by decide) (by decide)

end Extmark

namespace Extmark

theorem mget_cons (kv : String × Nat) (m : List (String × Nat)) (k : String) :
    mget (kv :: m) k = if kv.1 = k then some kv.2 else mget m k := by
  by_cases h : kv.1 = k <;> simp [mget, List.find?_cons, h]

theorem mget_nil (k : String) : mget [] k = none := rfl

theorem mget_mset_self (m : List (String × Nat)) (k : String) (v : Nat) :
    mget (mset m k v) k = some v := by
  simp [mset, mget_cons]

theorem mget_mset_ne (m : List (String × Nat)) (k k' : String) (v : Nat)
    (h : k' ≠ k) : mget (mset m k v) k' = mget m k' := by
  simp [mset, mget_cons, Ne.symm h]

theorem mget_mdel_self (m : List (String × Nat)) (k : String) :
    mget (mdel m k) k = none := by
  induction m with
  | nil => rfl
  | cons kv m' ih =>
    by_cases hk : kv.1 = k
    · simpa [mdel, hk] using ih
    · simpa [mdel, hk, mget_cons] using ih

theorem mget_mdel_ne (m : List (String × Nat)) (k k' : String) (h : k' ≠ k) :
    mget (mdel m k) k' = mget m k' := by
  induction m with
  | nil => rfl
  | cons kv m' ih =>
    by_cases hk : kv.1 = k
    · have hne : kv.1 ≠ k' := by
        rw [hk]
        exact Ne.symm h
      simp only [mdel, if_pos hk, mget_cons, if_neg hne]
      exact ih
    · simp only [mdel, if_neg hk, mget_cons]
      by_cases hk' : kv.1 = k'
      · simp [hk']
      · simp only [if_neg hk']
        exact ih

theorem mget_mset_cases (m : List (String × Nat)) (k k' : String) (v j : Nat)
    (h : mget (mset m k v) k' = some j) :
    (k' = k ∧ j = v) ∨ mget m k' = some j := by
  by_cases hk : k' = k
  · subst hk
    rw [mget_mset_self] at h
    exact Or.inl ⟨rfl, (Option.some_inj.mp h).symm⟩
  · rw [mget_mset_ne m k k' v hk] at h
    exact Or.inr h

theorem mget_mdel_le (m : List (String × Nat)) (k k' : String) (j : Nat)
    (h : mget (mdel m k) k' = some j) : mget m k' = some j := by
  by_cases hk : k' = k
  · subst hk
    rw [mget_mdel_self] at h
    cases h
  · rwa [mget_mdel_ne m k k' hk] at h

theorem truthy_ne_of (o n : Option String) (ho : ¬ truthy o = true)
    (hn : truthy n = true) : o ≠ n := by
  intro h
  rw [h] at ho
  exact ho hn

/-- Scenario: the key did not change and is already indexed here — the map
is untouched. -/
theorem updKeyMap_same (m : List (String × Nat)) (oldK newK : Option String)
    (i : Nat) (heq : oldK = newK) (ht : truthy newK = true)
    (hm : mget m (strOf newK) = some i) :
    updKeyMap m oldK newK i = m := by
  subst heq
  have h1 : updKeyMap1 m oldK oldK i = m := by
    unfold updKeyMap1
    rw [if_neg]
    intro hc
    rcases hc with hc | hc
    · exact hc rfl
    · exact hc.2 hm
  rw [updKeyMap, h1, updKeyMap2, if_neg]
  intro hc
  exact hc.2.2 hm

/-- Scenario: neither key is truthy — the map is untouched. -/
theorem updKeyMap_falsy (m : List (String × Nat)) (oldK newK : Option String)
    (i : Nat) (ho : ¬ truthy oldK = true) (hn : ¬ truthy newK = true) :
    updKeyMap m oldK newK i = m := by
  have h1 : updKeyMap1 m oldK newK i = m := by
    unfold updKeyMap1
    by_cases hc : oldK ≠ newK ∨ (truthy newK = true ∧ mget m (strOf newK) ≠ some i)
    · rw [if_pos hc, if_neg hn, if_neg]
      intro hc2
      exact ho hc2.1
    · rw [if_neg hc]
  rw [updKeyMap, h1, updKeyMap2, if_neg]
  intro hc2
  exact hn hc2.2.1

/-- Scenario: a truthy key replaced a different truthy key that was indexed
at this slot — the old binding is deleted and the new key indexed. -/
theorem updKeyMap_swap (m : List (String × Nat)) (oldK newK : Option String)
    (i : Nat) (ho : truthy oldK = true) (hn : truthy newK = true)
    (hne : oldK ≠ newK) (hm : mget m (strOf oldK) = some i) :
    updKeyMap m oldK newK i = mset (mdel m (strOf oldK)) (strOf newK) i := by
  have h1 : updKeyMap1 m oldK newK i = mset (mdel m (strOf oldK)) (strOf newK) i := by
    unfold updKeyMap1
    rw [if_pos (Or.inl hne), if_pos hn, if_pos ⟨ho, hm⟩]
  rw [updKeyMap, h1, updKeyMap2, if_neg]
  intro hc
  exact hc.1 ho

/-- Scenario: a slot with no truthy key gained a truthy key — the new key
is indexed, nothing is deleted. -/
theorem updKeyMap_gain (m : List (String × Nat)) (oldK newK : Option String)
    (i : Nat) (ho : ¬ truthy oldK = true) (hn : truthy newK = true) :
    updKeyMap m oldK newK i = mset m (strOf newK) i := by
  have h1 : updKeyMap1 m oldK newK i = mset m (strOf newK) i := by
    unfold updKeyMap1
    rw [if_pos (Or.inl (truthy_ne_of _ _ ho hn)), if_pos hn, if_neg]
    intro hc
    exact ho hc.1
  rw [updKeyMap, h1, updKeyMap2, if_neg]
  intro hc
  exact hc.2.2 (mget_mset_self _ _ _)

theorem updKeyMap1_bound (m : List (String × Nat)) (oldK newK : Option String)
    (i : Nat) (u : String) (j : Nat)
    (h : mget (updKeyMap1 m oldK newK i) u = some j) :
    mget m u = some j ∨ j = i := by
  unfold updKeyMap1 at h
  split at h
  · split at h
    · rcases mget_mset_cases _ _ _ _ _ h with ⟨_, rfl⟩ | h'
      · exact Or.inr rfl
      · split at h'
        · exact Or.inl (mget_mdel_le _ _ _ _ h')
        · exact Or.inl h'
    · split at h
      · exact Or.inl (mget_mdel_le _ _ _ _ h)
      · exact Or.inl h
  · exact Or.inl h

/-- Whatever the update blocks do, a binding of the updated map either
existed before or points at the updated slot. -/
theorem updKeyMap_bound (m : List (String × Nat)) (oldK newK : Option String)
    (i : Nat) (u : String) (j : Nat)
    (h : mget (updKeyMap m oldK newK i) u = some j) :
    mget m u = some j ∨ j = i := by
  unfold updKeyMap updKeyMap2 at h
  split at h
  · rcases mget_mset_cases _ _ _ _ _ h with ⟨_, rfl⟩ | h'
    · exact Or.inr rfl
    · exact updKeyMap1_bound _ _ _ _ _ _ h'
  · exact updKeyMap1_bound _ _ _ _ _ _ h

end Extmark

namespace Extmark

theorem get?_set_cases {α : Type} {l : List α} {i j : Nat} {a e : α}
    (h : (l.set i a).get? j = some e) :
    (j = i ∧ e = a ∧ i < l.length) ∨ (j ≠ i ∧ l.get? j = some e) := by
  by_cases hji : j = i
  · subst hji
    rw [List.get?_set_eq] at h
    cases hl : l.get? j with
    | none =>
      rw [hl] at h
      cases h
    | some x =>
      rw [hl] at h
      simp only [Option.map_eq_map, Option.map_some'] at h
      obtain ⟨hlt, _⟩ := List.get?_eq_some.mp hl
      exact Or.inl ⟨rfl, (Option.some_inj.mp h).symm, hlt⟩
  · refine Or.inr ⟨hji, ?_⟩
    rwa [List.get?_set_ne _ _ (fun he => hji he.symm)] at h

theorem get?_set_self {α : Type} {l : List α} {i : Nat} (a : α)
    (hi : i < l.length) : (l.set i a).get? i = some a := by
  rw [List.get?_set_eq]
  cases hl : l.get? i with
  | none =>
    rw [List.get?_eq_none] at hl
    omega
  | some x => rfl

theorem get?_set_other {α : Type} {l : List α} {i j : Nat} (a : α)
    (hji : j ≠ i) : (l.set i a).get? j = l.get? j :=
  List.get?_set_ne _ _ (fun he => hji he.symm)

theorem get?_concat_cases {α : Type} {l : List α} {a e : α} {j : Nat}
    (h : (l ++ [a]).get? j = some e) :
    (j < l.length ∧ l.get? j = some e) ∨ (j = l.length ∧ e = a) := by
  rcases lt_trichotomy j l.length with hj | hj | hj
  · exact Or.inl ⟨hj, by rwa [List.get?_append hj] at h⟩
  · subst hj
    rw [List.get?_concat_length] at h
    exact Or.inr ⟨rfl, (Option.some_inj.mp h).symm⟩
  · exfalso
    have : (l ++ [a]).get? j = none := by
      rw [List.get?_eq_none, List.length_append]
      simp only [List.length_singleton]
      omega
    rw [this] at h
    cases h

/-- The well-formedness invariant the `mergeExtensionLists` loop preserves:
`idToIndexMap` bindings point at records carrying exactly that id key,
every record's id key is indexed at its own slot, and `urlToIndexMap`
bindings are in range. -/
def Inv (st : MState) : Prop :=
  (∀ k i, mget st.idMap k = some i → ∃ e, st.res.get? i = some e ∧ idKey e = some k) ∧
  (∀ i e k, st.res.get? i = some e → idKey e = some k → mget st.idMap k = some i) ∧
  (∀ u i, mget st.urlMap u = some i → i < st.res.length)

theorem idKey_some_iff (e : Ext) (k : String) :
    idKey e = some k ↔ (truthy e.id = true ∧ strOf e.id = k) := by
  unfold idKey
  by_cases h : truthy e.id = true <;> simp [h]

theorem idKey_none_iff (e : Ext) :
    idKey e = none ↔ ¬ truthy e.id = true := by
  unfold idKey
  by_cases h : truthy e.id = true <;> simp [h]

theorem truthy_strOf (o : Option String) (h : truthy o = true) :
    o = some (strOf o) := by
  cases o with
  | none => cases h
  | some s => rfl

end Extmark

namespace Extmark

/-- Replacing the slot's record with one carrying the same id key keeps the
id-map invariants with the map untouched. -/
theorem inv_set_same (st : MState) (i : Nat) (tgt m : Ext)
    (h1 : ∀ k j, mget st.idMap k = some j →
      ∃ e, st.res.get? j = some e ∧ idKey e = some k)
    (h2 : ∀ j e k, st.res.get? j = some e → idKey e = some k →
      mget st.idMap k = some j)
    (hget : st.res.get? i = some tgt)
    (hkey : idKey m = idKey tgt) :
    (∀ k j, mget st.idMap k = some j →
      ∃ e, (st.res.set i m).get? j = some e ∧ idKey e = some k) ∧
    (∀ j e k, (st.res.set i m).get? j = some e → idKey e = some k →
      mget st.idMap k = some j) := by
  obtain ⟨hilen, _⟩ := List.get?_eq_some.mp hget
  constructor
  · intro k j hkj
    obtain ⟨e, he, hek⟩ := h1 k j hkj
    by_cases hji : j = i
    · subst hji
      refine ⟨m, get?_set_self m hilen, ?_⟩
      rw [hget] at he
      cases Option.some_inj.mp he
      rw [hkey]
      exact hek
    · exact ⟨e, by rwa [get?_set_other m hji], hek⟩
  · intro j e k hje hek
    rcases get?_set_cases hje with ⟨rfl, rfl, _⟩ | ⟨hji, hold⟩
    · exact h2 j tgt k hget (by rw [← hkey]; exact hek)
    · exact h2 j e k hold hek

/-- A slot whose id key changed from `kt` to a previously unindexed `kc`:
deleting `kt` and indexing `kc` at the slot keeps the id-map invariants. -/
theorem inv_set_swap (st : MState) (i : Nat) (tgt m : Ext) (kt kc : String)
    (h1 : ∀ k j, mget st.idMap k = some j →
      ∃ e, st.res.get? j = some e ∧ idKey e = some k)
    (h2 : ∀ j e k, st.res.get? j = some e → idKey e = some k →
      mget st.idMap k = some j)
    (hget : st.res.get? i = some tgt)
    (htgt : idKey tgt = some kt)
    (hmkey : idKey m = some kc)
    (hfresh : mget st.idMap kc = none) :
    (∀ k j, mget (mset (mdel st.idMap kt) kc i) k = some j →
      ∃ e, (st.res.set i m).get? j = some e ∧ idKey e = some k) ∧
    (∀ j e k, (st.res.set i m).get? j = some e → idKey e = some k →
      mget (mset (mdel st.idMap kt) kc i) k = some j) := by
  obtain ⟨hilen, _⟩ := List.get?_eq_some.mp hget
  have hmt : mget st.idMap kt = some i := h2 i tgt kt hget htgt
  constructor
  · intro k j hkj
    rcases mget_mset_cases _ _ _ _ _ hkj with ⟨rfl, rfl⟩ | hold
    · exact ⟨m, get?_set_self m hilen, hmkey⟩
    · have hkkt : k ≠ kt := by
        intro h
        subst h
        rw [mget_mdel_self] at hold
        cases hold
      have hold' : mget st.idMap k = some j := mget_mdel_le _ _ _ _ hold
      obtain ⟨e, he, hek⟩ := h1 k j hold'
      have hji : j ≠ i := by
        intro h
        subst h
        rw [hget] at he
        cases Option.some_inj.mp he
        rw [htgt] at hek
        exact hkkt (Option.some_inj.mp hek).symm
      exact ⟨e, by rwa [get?_set_other m hji], hek⟩
  · intro j e k hje hek
    rcases get?_set_cases hje with ⟨rfl, rfl, _⟩ | ⟨hji, hold⟩
    · rw [hmkey] at hek
      cases Option.some_inj.mp hek
      exact mget_mset_self _ _ _
    · have hold' := h2 j e k hold hek
      have hkkc : k ≠ kc := by
        intro h
        subst h
        rw [hfresh] at hold'
        cases hold'
      have hkkt : k ≠ kt := by
        intro h
        subst h
        rw [hmt] at hold'
        exact hji (Option.some_inj.mp hold').symm
      rw [mget_mset_ne _ _ _ _ hkkc, mget_mdel_ne _ _ _ hkkt]
      exact hold'

/-- A slot with no id key gained the previously unindexed key `kc`:
indexing `kc` at the slot keeps the id-map invariants. -/
theorem inv_set_gain (st : MState) (i : Nat) (tgt m : Ext) (kc : String)
    (h1 : ∀ k j, mget st.idMap k = some j →
      ∃ e, st.res.get? j = some e ∧ idKey e = some k)
    (h2 : ∀ j e k, st.res.get? j = some e → idKey e = some k →
      mget st.idMap k = some j)
    (hget : st.res.get? i = some tgt)
    (htgt : idKey tgt = none)
    (hmkey : idKey m = some kc)
    (hfresh : mget st.idMap kc = none) :
    (∀ k j, mget (mset st.idMap kc i) k = some j →
      ∃ e, (st.res.set i m).get? j = some e ∧ idKey e = some k) ∧
    (∀ j e k, (st.res.set i m).get? j = some e → idKey e = some k →
      mget (mset st.idMap kc i) k = some j) := by
  obtain ⟨hilen, _⟩ := List.get?_eq_some.mp hget
  constructor
  · intro k j hkj
    rcases mget_mset_cases _ _ _ _ _ hkj with ⟨rfl, rfl⟩ | hold
    · exact ⟨m, get?_set_self m hilen, hmkey⟩
    · obtain ⟨e, he, hek⟩ := h1 k j hold
      have hji : j ≠ i := by
        intro h
        subst h
        rw [hget] at he
        cases Option.some_inj.mp he
        rw [htgt] at hek
        cases hek
      exact ⟨e, by rwa [get?_set_other m hji], hek⟩
  · intro j e k hje hek
    rcases get?_set_cases hje with ⟨rfl, rfl, _⟩ | ⟨hji, hold⟩
    · rw [hmkey] at hek
      cases Option.some_inj.mp hek
      exact mget_mset_self _ _ _
    · have hold' := h2 j e k hold hek
      have hkkc : k ≠ kc := by
        intro h
        subst h
        rw [hfresh] at hold'
        cases hold'
      rw [mget_mset_ne _ _ _ _ hkkc]
      exact hold'

end Extmark

namespace Extmark

theorem inv_pushNew (st : MState) (cur : Ext) (hI : Inv st)
    (hmiss : ∀ k, idKey cur = some k → mget st.idMap k = none) :
    Inv (pushNew st cur) := by
  obtain ⟨h1, h2, h3⟩ := hI
  have hIdPart :
      (∀ k j, mget (match idKey cur with
          | some k => mset st.idMap k st.res.length
          | none => st.idMap) k = some j →
        ∃ e, (st.res ++ [cur]).get? j = some e ∧ idKey e = some k) ∧
      (∀ j e k, (st.res ++ [cur]).get? j = some e → idKey e = some k →
        mget (match idKey cur with
          | some k => mset st.idMap k st.res.length
          | none => st.idMap) k = some j) := by
    cases hik : idKey cur with
    | none =>
      refine ⟨fun k j hkj => ?_, fun j e k hje hek => ?_⟩
      · obtain ⟨e, he, hek⟩ := h1 k j hkj
        obtain ⟨hjlen, _⟩ := List.get?_eq_some.mp he
        exact ⟨e, by rw [List.get?_append hjlen]; exact he, hek⟩
      · rcases get?_concat_cases hje with ⟨_, hold⟩ | ⟨rfl, rfl⟩
        · exact h2 j e k hold hek
        · rw [hik] at hek
          cases hek
    | some kc =>
      refine ⟨fun k j hkj => ?_, fun j e k hje hek => ?_⟩
      · rcases mget_mset_cases _ _ _ _ _ hkj with ⟨rfl, rfl⟩ | hold
        · exact ⟨cur, List.get?_concat_length _ _, hik⟩
        · obtain ⟨e, he, hek⟩ := h1 k j hold
          obtain ⟨hjlen, _⟩ := List.get?_eq_some.mp he
          exact ⟨e, by rw [List.get?_append hjlen]; exact he, hek⟩
      · rcases get?_concat_cases hje with ⟨_, hold⟩ | ⟨rfl, rfl⟩
        · have hold' := h2 j e k hold hek
          have hkkc : k ≠ kc := by
            intro h
            subst h
            rw [hmiss k hik] at hold'
            cases hold'
          rw [mget_mset_ne _ _ _ _ hkkc]
          exact hold'
        · rw [hik] at hek
          cases Option.some_inj.mp hek
          exact mget_mset_self _ _ _
  have hUrlPart : ∀ u j, mget (match urlKey cur with
      | some u => mset st.urlMap u st.res.length
      | none => st.urlMap) u = some j → j < (st.res ++ [cur]).length := by
    intro u j huj
    rw [List.length_append, List.length_singleton]
    cases hou : urlKey cur with
    | none =>
      rw [hou] at huj
      have := h3 u j huj
      omega
    | some u0 =>
      rw [hou] at huj
      rcases mget_mset_cases _ _ _ _ _ huj with ⟨rfl, rfl⟩ | hold
      · omega
      · have := h3 u j hold
        omega
  exact ⟨hIdPart.1, hIdPart.2, hUrlPart⟩

end Extmark

namespace Extmark

theorem inv_merge (st : MState) (i : Nat) (tgt cur : Ext) (isB : Bool)
    (hI : Inv st) (hget : st.res.get? i = some tgt)
    (hkc : ∀ kc, idKey cur = some kc →
      mget st.idMap kc = none ∨ mget st.idMap kc = some i) :
    Inv { res := st.res.set i
            (mergeTwo (if isB then tgt else cur) (if isB then cur else tgt)),
          idMap := updKeyMap st.idMap tgt.id
            (mergeTwo (if isB then tgt else cur) (if isB then cur else tgt)).id i,
          urlMap := updKeyMap st.urlMap tgt.homepageUrl
            (mergeTwo (if isB then tgt else cur) (if isB then cur else tgt)).homepageUrl i } := by
  obtain ⟨h1, h2, h3⟩ := hI
  obtain ⟨hilen, _⟩ := List.get?_eq_some.mp hget
  set m := mergeTwo (if isB then tgt else cur) (if isB then cur else tgt) with hmdef
  have hmid : m.id = if truthy (if isB then cur else tgt).id = true
      then (if isB then cur else tgt).id else (if isB then tgt else cur).id := rfl
  have hurl : ∀ u j,
      mget (updKeyMap st.urlMap tgt.homepageUrl m.homepageUrl i) u = some j →
      j < (st.res.set i m).length := by
    intro u j hu
    rw [List.length_set]
    rcases updKeyMap_bound _ _ _ _ _ _ hu with hold | rfl
    · exact h3 u j hold
    · exact hilen
  by_cases ht : truthy tgt.id = true
  · have htgtkey : idKey tgt = some (strOf tgt.id) := (idKey_some_iff _ _).mpr ⟨ht, rfl⟩
    have hmt : mget st.idMap (strOf tgt.id) = some i := h2 i tgt _ hget htgtkey
    by_cases hc : truthy cur.id = true
    · have hckey : idKey cur = some (strOf cur.id) := (idKey_some_iff _ _).mpr ⟨hc, rfl⟩
      rcases hkc _ hckey with hfresh | hsame
      · -- cur's id key is not indexed anywhere
        have hsne : strOf cur.id ≠ strOf tgt.id := by
          intro h
          rw [h, hmt] at hfresh
          cases hfresh
        cases isB with
        | true =>
          -- preferred side is cur: the slot's id changes to cur's
          have hmid2 : m.id = cur.id := by
            rw [hmid]
            simp [hc]
          have hn : truthy m.id = true := by
            rw [hmid2]
            exact hc
          have hne : tgt.id ≠ m.id := by
            rw [hmid2]
            intro h
            exact hsne (by rw [← h])
          have hswap := updKeyMap_swap st.idMap tgt.id m.id i ht hn hne hmt
          have hmkey : idKey m = some (strOf m.id) := (idKey_some_iff _ _).mpr ⟨hn, rfl⟩
          have hfresh' : mget st.idMap (strOf m.id) = none := by
            rw [hmid2]
            exact hfresh
          have hmain := inv_set_swap st i tgt m (strOf tgt.id) (strOf m.id)
            h1 h2 hget htgtkey hmkey hfresh'
          rw [← hswap] at hmain
          exact ⟨hmain.1, hmain.2, hurl⟩
        | false =>
          -- preferred side is tgt: the slot keeps its id
          have hmid2 : m.id = tgt.id := by
            rw [hmid]
            simp [ht]
          have hkeyEq : idKey m = idKey tgt := by
            unfold idKey
            rw [hmid2]
          have hsame' := updKeyMap_same st.idMap tgt.id m.id i
            (by rw [hmid2]) (by rw [hmid2]; exact ht) (by rw [hmid2]; exact hmt)
          have hmain := inv_set_same st i tgt m h1 h2 hget hkeyEq
          rw [← hsame'] at hmain
          exact ⟨hmain.1, hmain.2, hurl⟩
      · -- cur's id key is indexed at this very slot: the two ids coincide
        obtain ⟨e, he, hek⟩ := h1 _ _ hsame
        rw [hget] at he
        cases Option.some_inj.mp he
        have hseq : strOf tgt.id = strOf cur.id := by
          rw [htgtkey] at hek
          exact Option.some_inj.mp hek
        have hopteq : tgt.id = cur.id := by
          rw [truthy_strOf _ ht, truthy_strOf _ hc, hseq]
        have hmid2 : m.id = tgt.id := by
          rw [hmid]
          cases isB <;> simp [hc, ht, hopteq]
        have hkeyEq : idKey m = idKey tgt := by
          unfold idKey
          rw [hmid2]
        have hsame' := updKeyMap_same st.idMap tgt.id m.id i
          (by rw [hmid2]) (by rw [hmid2]; exact ht) (by rw [hmid2]; exact hmt)
        have hmain := inv_set_same st i tgt m h1 h2 hget hkeyEq
        rw [← hsame'] at hmain
        exact ⟨hmain.1, hmain.2, hurl⟩
    · -- tgt truthy, cur falsy: the slot keeps its id
      have hmid2 : m.id = tgt.id := by
        rw [hmid]
        cases isB <;> simp [hc, ht]
      have hkeyEq : idKey m = idKey tgt := by
        unfold idKey
        rw [hmid2]
      have hsame' := updKeyMap_same st.idMap tgt.id m.id i
        (by rw [hmid2]) (by rw [hmid2]; exact ht) (by rw [hmid2]; exact hmt)
      have hmain := inv_set_same st i tgt m h1 h2 hget hkeyEq
      rw [← hsame'] at hmain
      exact ⟨hmain.1, hmain.2, hurl⟩
  · by_cases hc : truthy cur.id = true
    · -- tgt falsy, cur truthy: the slot gains cur's id
      have hckey : idKey cur = some (strOf cur.id) := (idKey_some_iff _ _).mpr ⟨hc, rfl⟩
      have hfresh : mget st.idMap (strOf cur.id) = none := by
        rcases hkc _ hckey with h | h
        · exact h
        · exfalso
          obtain ⟨e, he, hek⟩ := h1 _ _ h
          rw [hget] at he
          cases Option.some_inj.mp he
          exact ht ((idKey_some_iff _ _).mp hek).1
      have hmid2 : m.id = cur.id := by
        rw [hmid]
        cases isB <;> simp [hc, ht]
      have hn : truthy m.id = true := by
        rw [hmid2]
        exact hc
      have hgain := updKeyMap_gain st.idMap tgt.id m.id i ht hn
      have htgtnone : idKey tgt = none := (idKey_none_iff _).mpr ht
      have hmkey : idKey m = some (strOf m.id) := (idKey_some_iff _ _).mpr ⟨hn, rfl⟩
      have hfresh' : mget st.idMap (strOf m.id) = none := by
        rw [hmid2]
        exact hfresh
      have hmain := inv_set_gain st i tgt m (strOf m.id)
        h1 h2 hget htgtnone hmkey hfresh'
      rw [← hgain] at hmain
      exact ⟨hmain.1, hmain.2, hurl⟩
    · -- both falsy: no key anywhere
      have hmfalsy : ¬ truthy m.id = true := by
        rw [hmid]
        cases isB <;> simp [hc, ht]
      have hfal := updKeyMap_falsy st.idMap tgt.id m.id i ht hmfalsy
      have hkeyEq : idKey m = idKey tgt := by
        rw [(idKey_none_iff _).mpr hmfalsy, (idKey_none_iff _).mpr ht]
      have hmain := inv_set_same st i tgt m h1 h2 hget hkeyEq
      rw [← hfal] at hmain
      exact ⟨hmain.1, hmain.2, hurl⟩

end Extmark

namespace Extmark

theorem inv_stepExt (isB : Bool) (st : MState) (cur : Ext) (hI : Inv st) :
    Inv (stepExt isB st cur) := by
  obtain ⟨h1, h2, h3⟩ := hI
  cases hik : idKey cur with
  | some kc =>
    cases hmk : mget st.idMap kc with
    | some i =>
      obtain ⟨tgt, hget, _⟩ := h1 kc i hmk
      have hstep : stepExt isB st cur =
          { res := st.res.set i
              (mergeTwo (if isB then tgt else cur) (if isB then cur else tgt)),
            idMap := updKeyMap st.idMap tgt.id
              (mergeTwo (if isB then tgt else cur) (if isB then cur else tgt)).id i,
            urlMap := updKeyMap st.urlMap tgt.homepageUrl
              (mergeTwo (if isB then tgt else cur) (if isB then cur else tgt)).homepageUrl i } := by
        simp only [stepExt, hik, hmk, hget]
      rw [hstep]
      refine inv_merge st i tgt cur isB ⟨h1, h2, h3⟩ hget ?_
      intro kc' hkc'
      rw [hik] at hkc'
      cases Option.some_inj.mp hkc'
      exact Or.inr hmk
    | none =>
      cases hou : urlKey cur with
      | some u =>
        cases hmu : mget st.urlMap u with
        | some i =>
          have hlen : i < st.res.length := h3 u i hmu
          cases hget : st.res.get? i with
          | some tgt =>
            have hstep : stepExt isB st cur =
                { res := st.res.set i
                    (mergeTwo (if isB then tgt else cur) (if isB then cur else tgt)),
                  idMap := updKeyMap st.idMap tgt.id
                    (mergeTwo (if isB then tgt else cur) (if isB then cur else tgt)).id i,
                  urlMap := updKeyMap st.urlMap tgt.homepageUrl
                    (mergeTwo (if isB then tgt else cur)
                      (if isB then cur else tgt)).homepageUrl i } := by
              simp only [stepExt, hik, hmk, hou, hmu, hget]
            rw [hstep]
            refine inv_merge st i tgt cur isB ⟨h1, h2, h3⟩ hget ?_
            intro kc' hkc'
            rw [hik] at hkc'
            cases Option.some_inj.mp hkc'
            exact Or.inl hmk
          | none =>
            exfalso
            rw [List.get?_eq_none] at hget
            omega
        | none =>
          have hstep : stepExt isB st cur = pushNew st cur := by
            simp only [stepExt, hik, hmk, hou, hmu]
          rw [hstep]
          refine inv_pushNew st cur ⟨h1, h2, h3⟩ ?_
          intro k hk
          rw [hik] at hk
          cases Option.some_inj.mp hk
          exact hmk
      | none =>
        have hstep : stepExt isB st cur = pushNew st cur := by
          simp only [stepExt, hik, hmk, hou]
        rw [hstep]
        refine inv_pushNew st cur ⟨h1, h2, h3⟩ ?_
        intro k hk
        rw [hik] at hk
        cases Option.some_inj.mp hk
        exact hmk
  | none =>
    cases hou : urlKey cur with
    | some u =>
      cases hmu : mget st.urlMap u with
      | some i =>
        have hlen : i < st.res.length := h3 u i hmu
        cases hget : st.res.get? i with
        | some tgt =>
          have hstep : stepExt isB st cur =
              { res := st.res.set i
                  (mergeTwo (if isB then tgt else cur) (if isB then cur else tgt)),
                idMap := updKeyMap st.idMap tgt.id
                  (mergeTwo (if isB then tgt else cur) (if isB then cur else tgt)).id i,
                urlMap := updKeyMap st.urlMap tgt.homepageUrl
                  (mergeTwo (if isB then tgt else cur)
                    (if isB then cur else tgt)).homepageUrl i } := by
            simp only [stepExt, hik, hou, hmu, hget]
          rw [hstep]
          refine inv_merge st i tgt cur isB ⟨h1, h2, h3⟩ hget ?_
          intro kc' hkc'
          rw [hik] at hkc'
          cases hkc'
        | none =>
          exfalso
          rw [List.get?_eq_none] at hget
          omega
      | none =>
        have hstep : stepExt isB st cur = pushNew st cur := by
          simp only [stepExt, hik, hou, hmu]
        rw [hstep]
        refine inv_pushNew st cur ⟨h1, h2, h3⟩ ?_
        intro k hk
        rw [hik] at hk
        cases hk
    | none =>
      have hstep : stepExt isB st cur = pushNew st cur := by
        simp only [stepExt, hik, hou]
      rw [hstep]
      refine inv_pushNew st cur ⟨h1, h2, h3⟩ ?_
      intro k hk
      rw [hik] at hk
      cases hk

theorem inv_foldl (isB : Bool) (l : List Ext) (st : MState) (hI : Inv st) :
    Inv (l.foldl (stepExt isB) st) := by
  induction l generalizing st with
  | nil => exact hI
  | cons x xs ih => exact ih _ (inv_stepExt isB st x hI)

theorem inv_mergeExtensionCore (la lb : List Ext) :
    Inv (mergeExtensionCore la lb) := by
  unfold mergeExtensionCore
  refine inv_foldl true lb _ (inv_foldl false la _ ?_)
  refine ⟨?_, ?_, ?_⟩
  · intro k i h
    cases h
  · intro i e k h
    rw [List.get?_eq_none.mpr (by simp)] at h
    cases h
  · intro u i h
    cases h

end Extmark

namespace Extmark

/-- **C1 counterexample**: after `{id:"a"}` and `{homepageUrl:"u"}` from the
base list, the incoming records `{id:"a", homepageUrl:"u"}` (unifying by id
and stealing the url index entry), `{id:"a", homepageUrl:"v"}` (deleting
the `"u"` entry while re-keying the slot's url) and `{homepageUrl:"u",
name:"z"}` (now finding no `"u"` slot and appended fresh) leave two output
records that share no id — both have none — yet both carry the non-empty
`homepageUrl` `"u"`, violating the claim's uniqueness property. -/
theorem spec_C1_counterexample :
    mergeExtensionLists
        (.arr [.obj ⟨some "a", none, none, none, []⟩,
               .obj ⟨none, none, some "u", none, []⟩])
        (.arr [.obj ⟨some "a", none, some "u", none, []⟩,
               .obj ⟨some "a", none, some "v", none, []⟩,
               .obj ⟨none, some "z", some "u", none, []⟩]) =
      [⟨some "a", none, some "v", none, []⟩,
       ⟨none, none, some "u", none, []⟩,
       ⟨none, some "z", some "u", none, []⟩] ∧
    idKey ⟨none, none, some "u", none, []⟩ = none ∧
    idKey ⟨none, some "z", some "u", none, []⟩ = none ∧
    urlKey ⟨none, none, some "u", none, []⟩ = some "u" ∧
    urlKey ⟨none, some "z", some "u", none, []⟩ = some "u" := by
  exact ⟨by decide, rfl, rfl, rfl, rfl⟩

/-- **C1** (amended): in every output of `mergeExtensionLists`, no two
records share a non-empty id.  (The homepage-URL half of the claimed
invariant is refuted by `spec_C1_counterexample`.) -/
theorem spec_C1 (a b : EInput) (i j : Nat) (ei ej : Ext) (k : String)
    (hij : i ≠ j)
    (hi : (mergeExtensionLists a b).get? i = some ei)
    (hj : (mergeExtensionLists a b).get? j = some ej)
    (hik : idKey ei = some k) : idKey ej ≠ some k := by
  intro hjk
  obtain ⟨h1, h2, h3⟩ := inv_mergeExtensionCore (normalizeE a) (normalizeE b)
  have hii := h2 i ei k hi hik
  have hjj := h2 j ej k hj hjk
  rw [hii] at hjj
  exact hij (Option.some_inj.mp hjj)

/-- Witness for `spec_C1` at concrete inputs: two distinct slots of a
concrete merge carry distinct ids. -/
theorem spec_C1_witness :
    idKey ⟨some "b", none, none, none, []⟩ ≠ some "a" ∧
    mergeExtensionLists (.arr [.obj ⟨some "a", none, none, none, []⟩])
        (.arr [.obj ⟨some "b", none, none, none, []⟩]) =
      [⟨some "a", none, none, none, []⟩, ⟨some "b", none, none, none, []⟩] := by
  constructor
  · exact spec_C1 (.arr [.obj ⟨some "a", none, none, none, []⟩])
      (.arr [.obj ⟨some "b", none, none, none, []⟩]) 0 1
      ⟨some "a", none, none, none, []⟩ ⟨some "b", none, none, none, []⟩ "a"
      (by decide) (by decide) (by decide) (by decide)
  · decide

end Extmark

namespace Extmark

theorem mergeNodes_nil (t : List BNode) : mergeNodes t [] = t := by
  simp only [mergeNodes]

theorem mergeNode1_leaf (t : List BNode) (xid : Option String) (xti xu : String)
    (xd : Option Nat) :
    mergeNode1 t (.leaf xid xti xu xd) =
      if isDuplicateBookmark t xti xu then t else t ++ [.leaf xid xti xu xd] := by
  simp only [mergeNode1, mergeNodes]

theorem mergeNode1_folder (t : List BNode) (xid : Option String) (xti : String)
    (xch : List BNode) (xd : Option Nat) :
    mergeNode1 t (.folder xid xti xch xd) =
      (match t.findIdx? (isFolderTitled xti) with
       | some i =>
         match t.get? i with
         | some (.folder fid fti fch fda) =>
           if xti = "Bookmarks Bar" then t.set i (.folder fid fti xch fda)
           else t.set i (.folder fid xti (mergeNodes fch xch) fda)
         | _ => t
       | none => t ++ [.folder xid xti xch xd]) := by
  simp only [mergeNode1, mergeNodes]

theorem mergeNodes_cons (t : List BNode) (x : BNode) (s : List BNode) :
    mergeNodes t (x :: s) = mergeNodes (mergeNode1 t x) s := by
  cases x with
  | leaf xid xti xu xd =>
    rw [mergeNode1_leaf]
    conv_lhs => rw [mergeNodes]
  | folder xid xti xch xd =>
    rw [mergeNode1_folder]
    conv_lhs => rw [mergeNodes]

end Extmark

namespace Extmark

/-- **C4**: an incoming folder titled `'Bookmarks Bar'` that matches an
existing folder of that exact title (the first one, at index `i`) has the
matched folder's children replaced wholesale with the incoming children —
both at the level of the per-node step and through `mergeBookmarkTrees`
with that folder as the incoming forest — regardless of the existing
children. -/
theorem spec_C4 (target : List BNode) (i : Nat) (sid fid : Option String)
    (sch fch : List BNode) (sda fda : Option Nat)
    (hfind : target.findIdx? (isFolderTitled "Bookmarks Bar") = some i)
    (hget : target.get? i = some (.folder fid "Bookmarks Bar" fch fda)) :
    mergeNode1 target (.folder sid "Bookmarks Bar" sch sda) =
      target.set i (.folder fid "Bookmarks Bar" sch fda) ∧
    mergeBookmarkTrees target [.folder sid "Bookmarks Bar" sch sda] =
      target.set i (.folder fid "Bookmarks Bar" sch fda) := by
  have h := mergeNode1_folder target sid "Bookmarks Bar" sch sda
  rw [hfind] at h
  simp only [hget, if_pos rfl, if_true] at h
  refine ⟨h, ?_⟩
  show mergeNodes target [.folder sid "Bookmarks Bar" sch sda] = _
  rw [mergeNodes_cons, mergeNodes_nil, h]

/-- Witness for `spec_C4`: replacing the second folder's children. -/
theorem spec_C4_witness :
    mergeBookmarkTrees
        [.folder none "Other" [.leaf none "A" "u" none] none,
         .folder none "Bookmarks Bar" [.leaf none "A" "u" none] none]
        [.folder none "Bookmarks Bar" [.leaf none "B" "v" none] none] =
      [.folder none "Other" [.leaf none "A" "u" none] none,
       .folder none "Bookmarks Bar" [.leaf none "B" "v" none] none] := by
  have h := (spec_C4
    [.folder none "Other" [.leaf none "A" "u" none] none,
     .folder none "Bookmarks Bar" [.leaf none "A" "u" none] none]
    1 none none [.leaf none "B" "v" none] [.leaf none "A" "u" none] none none
    (by simp [List.findIdx?, isFolderTitled]) rfl).2
  rw [h]
  rfl

end Extmark

namespace Extmark

theorem findIdx?_some_get {α : Type} (p : α → Bool) :
    ∀ (l : List α) (st i : Nat), List.findIdx? p l st = some i →
      st ≤ i ∧ ∃ e, l.get? (i - st) = some e ∧ p e = true := by
  intro l
  induction l with
  | nil =>
    intro st i h
    cases h
  | cons x xs ih =>
    intro st i h
    rw [List.findIdx?_cons] at h
    by_cases hp : p x = true
    · rw [if_pos hp] at h
      cases Option.some_inj.mp h
      exact ⟨Nat.le_refl _, x, by simp, hp⟩
    · rw [if_neg hp] at h
      obtain ⟨hle, e, hget, hpe⟩ := ih (st + 1) i h
      refine ⟨by omega, e, ?_, hpe⟩
      have : i - st = (i - (st + 1)) + 1 := by omega
      rw [this]
      simpa using hget

theorem findIdx?_none_all {α : Type} (p : α → Bool) :
    ∀ (l : List α) (st : Nat), List.findIdx? p l st = none →
      ∀ e ∈ l, p e = false := by
  intro l
  induction l with
  | nil =>
    intro st _ e he
    cases he
  | cons x xs ih =>
    intro st h e he
    rw [List.findIdx?_cons] at h
    by_cases hp : p x = true
    · rw [if_pos hp] at h
      cases h
    · rw [if_neg hp] at h
      rcases List.mem_cons.mp he with rfl | he'
      · exact Bool.eq_false_iff.mpr hp
      · exact ih (st + 1) h e he'

theorem findIdx?_before {α : Type} (p : α → Bool) :
    ∀ (l : List α) (st i : Nat), List.findIdx? p l st = some i →
      ∀ j e, j < i - st → l.get? j = some e → p e = false := by
  intro l
  induction l with
  | nil =>
    intro st i h
    cases h
  | cons x xs ih =>
    intro st i h j e hj hget
    rw [List.findIdx?_cons] at h
    by_cases hp : p x = true
    · rw [if_pos hp] at h
      cases Option.some_inj.mp h
      omega
    · rw [if_neg hp] at h
      have hle := (findIdx?_some_get p xs (st + 1) i h).1
      cases j with
      | zero =>
        cases Option.some_inj.mp hget
        exact Bool.eq_false_iff.mpr hp
      | succ j' =>
        refine ih (st + 1) i h j' e (by omega) ?_
        simpa using hget

theorem findIdx?_of {α : Type} (p : α → Bool) :
    ∀ (l : List α) (i : Nat) (e : α) (st : Nat), l.get? i = some e → p e = true →
      (∀ j e', j < i → l.get? j = some e' → p e' = false) →
      List.findIdx? p l st = some (st + i) := by
  intro l
  induction l with
  | nil =>
    intro i e st hget
    rw [List.get?_eq_none.mpr (by simp)] at hget
    cases hget
  | cons x xs ih =>
    intro i e st hget hpe hbefore
    rw [List.findIdx?_cons]
    cases i with
    | zero =>
      cases Option.some_inj.mp hget
      rw [if_pos hpe, Nat.add_zero]
    | succ i' =>
      have hpx : p x = false := hbefore 0 x (Nat.succ_pos _) rfl
      rw [if_neg (by simp [hpx])]
      have := ih i' e (st + 1) (by simpa using hget) hpe
        (fun j e' hj hg => hbefore (j + 1) e' (by omega) (by simpa using hg))
      rw [this]
      congr 1
      omega

end Extmark

namespace Extmark

/-- No folder titled `'Bookmarks Bar'` occurs anywhere in the forest. -/
def noBB : List BNode → Bool
  | [] => true
  | x :: s =>
    (match x with
      | .leaf _ _ _ _ => true
      | .folder _ ti ch _ => decide (ti ≠ "Bookmarks Bar") && noBB ch) && noBB s

mutual
/-- `NodeExt bb b r`: the result node `r` preserves the base node `b` — a
leaf is unchanged; a folder keeps its own id, title and date and its
children list is preserved in place (possibly with nodes appended or
recursively extended).  With `bb = true` a folder titled `'Bookmarks Bar'`
may instead have its children replaced arbitrarily. -/
inductive NodeExt : Bool → BNode → BNode → Prop where
  | leaf (bb : Bool) (id : Option String) (t u : String) (d : Option Nat) :
      NodeExt bb (.leaf id t u d) (.leaf id t u d)
  | folderRec (bb : Bool) (id : Option String) (t : String) (ch ch' : List BNode)
      (d : Option Nat) :
      ForestExt bb ch ch' → NodeExt bb (.folder id t ch d) (.folder id t ch' d)
  | folderBB (id : Option String) (ch ch' : List BNode) (d : Option Nat) :
      NodeExt true (.folder id "Bookmarks Bar" ch d)
        (.folder id "Bookmarks Bar" ch' d)

/-- `ForestExt bb b r`: every node of `b` appears at its own position in
`r`, extended per `NodeExt`; `r` may carry extra nodes appended at the
end. -/
inductive ForestExt : Bool → List BNode → List BNode → Prop where
  | nil (bb : Bool) (l : List BNode) : ForestExt bb [] l
  | cons (bb : Bool) (x y : BNode) (xs ys : List BNode) :
      NodeExt bb x y → ForestExt bb xs ys → ForestExt bb (x :: xs) (y :: ys)
end

mutual
theorem nodeExt_refl (bb : Bool) (x : BNode) : NodeExt bb x x := by
  cases x with
  | leaf i t u d => exact .leaf bb i t u d
  | folder i t ch d => exact .folderRec bb i t ch ch d (forestExt_refl bb ch)

theorem forestExt_refl (bb : Bool) (l : List BNode) : ForestExt bb l l := by
  cases l with
  | nil => exact .nil bb []
  | cons x xs => exact .cons bb x x xs xs (nodeExt_refl bb x) (forestExt_refl bb xs)
end

theorem forestExt_concat (bb : Bool) (l e : List BNode) :
    ForestExt bb l (l ++ e) := by
  induction l with
  | nil => exact .nil bb e
  | cons x xs ih => exact .cons bb x x xs (xs ++ e) (nodeExt_refl bb x) ih

theorem forestExt_set (bb : Bool) (l : List BNode) (i : Nat) (tgt a : BNode)
    (hget : l.get? i = some tgt) (hna : NodeExt bb tgt a) :
    ForestExt bb l (l.set i a) := by
  induction l generalizing i with
  | nil => cases hget
  | cons x xs ih =>
    cases i with
    | zero =>
      have hx : x = tgt := by simpa using hget
      subst hx
      exact .cons bb x a xs xs hna (forestExt_refl bb xs)
    | succ i' =>
      exact .cons bb x x xs (xs.set i' a) (nodeExt_refl bb x)
        (ih i' (by simpa using hget))

mutual
theorem nodeExt_trans (bb : Bool) (x y z : BNode)
    (h1 : NodeExt bb x y) (h2 : NodeExt bb y z) : NodeExt bb x z := by
  cases h1 with
  | leaf bb i t u d =>
    exact h2
  | folderRec bb i t ch ch' d hf =>
    cases h2 with
    | folderRec _ _ _ _ ch'' _ hf2 =>
      exact .folderRec bb i t ch ch'' d (forestExt_trans bb ch ch' ch'' hf hf2)
    | folderBB _ _ ch'' _ =>
      exact .folderBB i ch ch'' d
  | folderBB i ch ch' d =>
    cases h2 with
    | folderRec _ _ _ _ ch'' _ hf2 =>
      exact .folderBB i ch ch'' d
    | folderBB _ _ ch'' _ =>
      exact .folderBB i ch ch'' d

theorem forestExt_trans (bb : Bool) (l1 l2 l3 : List BNode)
    (h1 : ForestExt bb l1 l2) (h2 : ForestExt bb l2 l3) : ForestExt bb l1 l3 := by
  cases h1 with
  | nil bb l =>
    exact .nil bb l3
  | cons bb x y xs ys hn hf =>
    cases h2 with
    | cons _ _ z _ zs hn2 hf2 =>
      exact .cons bb x z xs zs (nodeExt_trans bb x y z hn hn2)
        (forestExt_trans bb xs ys zs hf hf2)
end

end Extmark

namespace Extmark

theorem noBB_cons_iff (x : BNode) (s : List BNode) :
    noBB (x :: s) = true ↔ (noBB [x] = true ∧ noBB s = true) := by
  cases x <;> simp [noBB]

theorem noBB_folder_iff (xid : Option String) (xti : String) (xch : List BNode)
    (xd : Option Nat) :
    noBB [.folder xid xti xch xd] = true ↔
      (xti ≠ "Bookmarks Bar" ∧ noBB xch = true) := by
  simp [noBB]

mutual
theorem forestExt_mergeNode1 (bb : Bool) (t : List BNode) (x : BNode)
    (hx : bb = true ∨ noBB [x] = true) : ForestExt bb t (mergeNode1 t x) := by
  cases x with
  | leaf xid xti xu xd =>
    rw [mergeNode1_leaf]
    by_cases hdup : isDuplicateBookmark t xti xu = true
    · rw [if_pos hdup]
      exact forestExt_refl bb t
    · rw [if_neg hdup]
      exact forestExt_concat bb t _
  | folder xid xti xch xd =>
    cases hf : t.findIdx? (isFolderTitled xti) with
    | none =>
      have hval : mergeNode1 t (.folder xid xti xch xd) =
          t ++ [.folder xid xti xch xd] := by
        rw [mergeNode1_folder, hf]
      rw [hval]
      exact forestExt_concat bb t _
    | some i =>
      cases hg : t.get? i with
      | none =>
        have hval : mergeNode1 t (.folder xid xti xch xd) = t := by
          rw [mergeNode1_folder, hf]
          simp only [hg]
        rw [hval]
        exact forestExt_refl bb t
      | some tgt =>
        cases tgt with
        | leaf fid fti fu fda =>
          have hval : mergeNode1 t (.folder xid xti xch xd) = t := by
            rw [mergeNode1_folder, hf]
            simp only [hg]
          rw [hval]
          exact forestExt_refl bb t
        | folder fid fti fch fda =>
          have hfti : fti = xti := by
            obtain ⟨e, hget, hpe⟩ := (findIdx?_some_get _ t 0 i hf).2
            rw [Nat.sub_zero, hg] at hget
            cases Option.some_inj.mp hget
            simpa [isFolderTitled] using hpe
          by_cases hbb : xti = "Bookmarks Bar"
          · have hval : mergeNode1 t (.folder xid xti xch xd) =
                t.set i (.folder fid fti xch fda) := by
              rw [mergeNode1_folder, hf]
              simp only [hg, if_pos hbb]
            rw [hval]
            cases bb with
            | false =>
              exfalso
              rcases hx with h | h
              · cases h
              · rw [noBB_folder_iff] at h
                exact h.1 hbb
            | true =>
              subst hbb
              subst hfti
              exact forestExt_set true t i _ _ hg (.folderBB fid fch xch fda)
          · have hval : mergeNode1 t (.folder xid xti xch xd) =
                t.set i (.folder fid xti (mergeNodes fch xch) fda) := by
              rw [mergeNode1_folder, hf]
              simp only [hg, if_neg hbb]
            rw [hval]
            subst hfti
            refine forestExt_set bb t i _ _ hg ?_
            refine .folderRec bb fid fti fch (mergeNodes fch xch) fda ?_
            refine forestExt_mergeNodes bb fch xch ?_
            rcases hx with h | h
            · exact Or.inl h
            · exact Or.inr ((noBB_folder_iff _ _ _ _).mp h).2

theorem forestExt_mergeNodes (bb : Bool) (t s : List BNode)
    (hs : bb = true ∨ noBB s = true) : ForestExt bb t (mergeNodes t s) := by
  cases s with
  | nil =>
    rw [mergeNodes_nil]
    exact forestExt_refl bb t
  | cons x s' =>
    rw [mergeNodes_cons]
    have hx : bb = true ∨ noBB [x] = true := by
      rcases hs with h | h
      · exact Or.inl h
      · exact Or.inr ((noBB_cons_iff x s').mp h).1
    have hs' : bb = true ∨ noBB s' = true := by
      rcases hs with h | h
      · exact Or.inl h
      · exact Or.inr ((noBB_cons_iff x s').mp h).2
    exact forestExt_trans bb _ _ _ (forestExt_mergeNode1 bb t x hx)
      (forestExt_mergeNodes bb (mergeNode1 t x) s' hs')
end

end Extmark

namespace Extmark

/-- **C10**: `mergeBookmarkTrees` never discards base data: every node of
the base forest appears at its own position in the result with its fields
intact, base folders only gaining children (recursively, appended), the
sole exception being folders titled `'Bookmarks Bar'`, whose children may
be replaced; when the incoming forest contains no folder of that title
anywhere, no exception at all is needed. -/
theorem spec_C10 :
    (∀ base inc : List BNode, ForestExt true base (mergeBookmarkTrees base inc)) ∧
    (∀ base inc : List BNode, noBB inc = true →
      ForestExt false base (mergeBookmarkTrees base inc)) := by
  constructor
  · intro base inc
    exact forestExt_mergeNodes true base inc (Or.inl rfl)
  · intro base inc h
    exact forestExt_mergeNodes false base inc (Or.inr h)

/-- Witness for `spec_C10`: a base with a bookmarks-bar folder is strictly
extended by an incoming forest containing none, and the merge evaluates to
the base with the new folder appended. -/
theorem spec_C10_witness :
    ForestExt false [.folder none "Bookmarks Bar" [.leaf none "A" "u" none] none]
      (mergeBookmarkTrees
        [.folder none "Bookmarks Bar" [.leaf none "A" "u" none] none]
        [.folder none "F" [.leaf none "B" "v" none] none]) ∧
    mergeBookmarkTrees
        [.folder none "Bookmarks Bar" [.leaf none "A" "u" none] none]
        [.folder none "F" [.leaf none "B" "v" none] none] =
      [.folder none "Bookmarks Bar" [.leaf none "A" "u" none] none,
       .folder none "F" [.leaf none "B" "v" none] none] := by
  refine ⟨spec_C10.2 _ _ (by simp [noBB]), ?_⟩
  simp [mergeBookmarkTrees, mergeNodes, isFolderTitled, List.findIdx?]

end Extmark

namespace Extmark

/-- The titles of the top-level folders of a forest. -/
def titlesOfFolders (l : List BNode) : List String :=
  l.filterMap (fun n => match n with
    | .folder _ t _ _ => some t
    | .leaf _ _ _ _ => none)

/-- Recursive node well-formedness: every leaf has a non-empty url and
every folder's children form a well-formed forest (sibling folder titles
pairwise distinct — the data-model invariant). -/
def wfAll : List BNode → Bool
  | [] => true
  | x :: s =>
    (match x with
      | .leaf _ _ u _ => decide (u ≠ "")
      | .folder _ _ ch _ => decide ((titlesOfFolders ch).Nodup) && wfAll ch) && wfAll s

/-- Forest well-formedness: distinct sibling folder titles at the top
level, and `wfAll` below. -/
def wfForest (l : List BNode) : Bool :=
  decide ((titlesOfFolders l).Nodup) && wfAll l

theorem titlesOfFolders_cons_leaf (id : Option String) (ti u : String)
    (d : Option Nat) (xs : List BNode) :
    titlesOfFolders (.leaf id ti u d :: xs) = titlesOfFolders xs := by
  simp [titlesOfFolders]

theorem titlesOfFolders_cons_folder (id : Option String) (ti : String)
    (ch : List BNode) (d : Option Nat) (xs : List BNode) :
    titlesOfFolders (.folder id ti ch d :: xs) = ti :: titlesOfFolders xs := by
  simp [titlesOfFolders]

theorem title_mem_titles (l : List BNode) (id : Option String) (ti : String)
    (ch : List BNode) (d : Option Nat) (h : BNode.folder id ti ch d ∈ l) :
    ti ∈ titlesOfFolders l := by
  simp only [titlesOfFolders, List.mem_filterMap]
  exact ⟨.folder id ti ch d, h, rfl⟩

theorem wfAll_mem : ∀ (l : List BNode), wfAll l = true → ∀ x ∈ l,
    (match x with
     | .leaf _ _ u _ => u ≠ ""
     | .folder _ _ ch _ => wfForest ch = true) := by
  intro l
  induction l with
  | nil =>
    intro _ x hx
    cases hx
  | cons y ys ih =>
    intro h x hx
    rw [wfAll.eq_def] at h
    simp only [Bool.and_eq_true] at h
    rcases List.mem_cons.mp hx with rfl | hx'
    · cases x with
      | leaf id ti u d =>
        simpa using h.1
      | folder id ti ch d =>
        show wfForest ch = true
        simpa [wfForest] using h.1
    · exact ih h.2 x hx'

theorem no_earlier_folder : ∀ (l : List BNode), (titlesOfFolders l).Nodup →
    ∀ (i : Nat) (id : Option String) (ti : String) (ch : List BNode)
      (d : Option Nat), l.get? i = some (.folder id ti ch d) →
    ∀ j e, j < i → l.get? j = some e → isFolderTitled ti e = false := by
  intro l
  induction l with
  | nil =>
    intro _ i _ _ _ _ h
    simp at h
  | cons x xs ih =>
    intro hnd i id ti ch d hget j e hj hgetj
    cases j with
    | zero =>
      have hex : x = e := by simpa using hgetj
      subst hex
      cases x with
      | leaf _ _ _ _ => rfl
      | folder xid xti xch xd =>
        by_cases hti : xti = ti
        · exfalso
          subst hti
          rw [titlesOfFolders_cons_folder] at hnd
          cases i with
          | zero => omega
          | succ i' =>
            have hmem : BNode.folder id xti ch d ∈ xs :=
              List.get?_mem (by simpa using hget)
            exact (List.nodup_cons.mp hnd).1 (title_mem_titles xs id xti ch d hmem)
        · simp [isFolderTitled, hti]
    | succ j' =>
      cases i with
      | zero => omega
      | succ i' =>
        have hndt : (titlesOfFolders xs).Nodup := by
          cases x with
          | leaf a b c dd =>
            rwa [titlesOfFolders_cons_leaf] at hnd
          | folder a b c dd =>
            rw [titlesOfFolders_cons_folder] at hnd
            exact (List.nodup_cons.mp hnd).2
        exact ih hndt i' id ti ch d (by simpa using hget) j' e (by omega)
          (by simpa using hgetj)

theorem set_get?_same : ∀ (l : List BNode) (i : Nat) (a : BNode),
    l.get? i = some a → l.set i a = l := by
  intro l
  induction l with
  | nil =>
    intro i a h
    simp at h
  | cons x xs ih =>
    intro i a h
    cases i with
    | zero =>
      have : x = a := by simpa using h
      subst this
      rfl
    | succ i' =>
      simp only [List.set]
      rw [ih i' a (by simpa using h)]

theorem isDup_of_mem (l : List BNode) (id : Option String) (ti u : String)
    (d : Option Nat) (hm : BNode.leaf id ti u d ∈ l) (hu : u ≠ "") :
    isDuplicateBookmark l ti u = true := by
  rw [isDuplicateBookmark, List.any_eq_true]
  refine ⟨.leaf id ti u d, hm, ?_⟩
  simp [hu]

theorem mergeNodes_fixed (t : List BNode) :
    ∀ (s : List BNode), (∀ x ∈ s, mergeNode1 t x = t) → mergeNodes t s = t := by
  intro s
  induction s with
  | nil =>
    intro _
    exact mergeNodes_nil t
  | cons x s' ih =>
    intro h
    rw [mergeNodes_cons, h x (List.mem_cons_self x s')]
    exact ih (fun y hy => h y (List.mem_cons_of_mem x hy))

end Extmark

namespace Extmark

theorem mergeNodes_self_fuel : ∀ (n : Nat) (l : List BNode), sizeOf l ≤ n →
    wfForest l = true → mergeNodes l l = l := by
  intro n
  induction n with
  | zero =>
    intro l hle _
    exfalso
    cases l <;> simp_arith at hle
  | succ n ih =>
    intro l hle hwf
    have hparts : (titlesOfFolders l).Nodup ∧ wfAll l = true := by
      simpa [wfForest] using hwf
    obtain ⟨hnd, hall⟩ := hparts
    apply mergeNodes_fixed
    intro x hx
    obtain ⟨i, hget⟩ := List.get?_of_mem hx
    have hxsize : sizeOf x < sizeOf l := List.sizeOf_lt_of_mem hx
    have hfacts := wfAll_mem l hall x hx
    cases x with
    | leaf id ti u d =>
      have hu : u ≠ "" := by simpa using hfacts
      rw [mergeNode1_leaf, if_pos (isDup_of_mem l id ti u d hx hu)]
    | folder id ti ch d =>
      have hwfch : wfForest ch = true := hfacts
      have hfind : l.findIdx? (isFolderTitled ti) = some i := by
        have h0 := findIdx?_of (isFolderTitled ti) l i (.folder id ti ch d) 0 hget
          (by simp [isFolderTitled])
          (fun j e' hj hg => no_earlier_folder l hnd i id ti ch d hget j e' hj hg)
        simpa using h0
      by_cases hbb : ti = "Bookmarks Bar"
      · have hval : mergeNode1 l (.folder id ti ch d) =
            l.set i (.folder id ti ch d) := by
          rw [mergeNode1_folder, hfind]
          simp only [hget, if_pos hbb]
        rw [hval, set_get?_same l i _ hget]
      · have hchn : sizeOf ch ≤ n := by
          have : sizeOf ch < sizeOf (BNode.folder id ti ch d) := by
            simp_arith
          omega
        have hch : mergeNodes ch ch = ch := ih ch hchn hwfch
        have hval : mergeNode1 l (.folder id ti ch d) =
            l.set i (.folder id ti (mergeNodes ch ch) d) := by
          rw [mergeNode1_folder, hfind]
          simp only [hget, if_neg hbb]
        rw [hval, hch, set_get?_same l i _ hget]

/-- **C6** (amended): on a forest satisfying the data-model invariant (no
two sibling folders share a title, at any level) whose leaves all carry
non-empty urls, re-merging the forest with an identical copy of itself is
the identity: `mergeBookmarkTrees T T = T`.  The bookmarks-bar wholesale
replacement installs the identical incoming children, so it also preserves
the value. -/
theorem spec_C6 (T : List BNode) (hwf : wfForest T = true) :
    mergeBookmarkTrees T T = T :=
  mergeNodes_self_fuel (sizeOf T) T (Nat.le_refl _) hwf

/-- **C6 counterexample**: a leaf with an empty `url` is never recognized
as a duplicate (the `t.url && node.url` truthiness test fails), so merging
the forest with itself duplicates it and `mergeTrees(T, T) ≠ T`. -/
theorem spec_C6_counterexample :
    mergeBookmarkTrees [.leaf none "A" "" none] [.leaf none "A" "" none] =
      [.leaf none "A" "" none, .leaf none "A" "" none] ∧
    mergeBookmarkTrees [.leaf none "A" "" none] [.leaf none "A" "" none] ≠
      [.leaf none "A" "" none] := by
  have h : mergeBookmarkTrees [.leaf none "A" "" none] [.leaf none "A" "" none] =
      [.leaf none "A" "" none, .leaf none "A" "" none] := by
    simp [mergeBookmarkTrees, mergeNodes, isDuplicateBookmark]
  refine ⟨h, ?_⟩
  rw [h]
  intro heq
  have hlen := congrArg List.length heq
  simp at hlen

/-- Witness for `spec_C6`: a two-folder forest (bookmarks bar included)
with nested content is a fixed point of self-merge. -/
theorem spec_C6_witness :
    wfForest [.folder none "Bookmarks Bar" [.leaf none "A" "u" none] none,
              .folder none "F" [.leaf none "B" "v" none] none] = true ∧
    mergeBookmarkTrees
        [.folder none "Bookmarks Bar" [.leaf none "A" "u" none] none,
         .folder none "F" [.leaf none "B" "v" none] none]
        [.folder none "Bookmarks Bar" [.leaf none "A" "u" none] none,
         .folder none "F" [.leaf none "B" "v" none] none] =
      [.folder none "Bookmarks Bar" [.leaf none "A" "u" none] none,
       .folder none "F" [.leaf none "B" "v" none] none] := by
  have hwf : wfForest [.folder none "Bookmarks Bar" [.leaf none "A" "u" none] none,
      .folder none "F" [.leaf none "B" "v" none] none] = true := by
    rw [wfForest]
    rw [show wfAll [BNode.folder none "Bookmarks Bar" [.leaf none "A" "u" none] none,
        .folder none "F" [.leaf none "B" "v" none] none] = true from by
      simp [wfAll, titlesOfFolders]]
    simp [titlesOfFolders]
  exact ⟨hwf, spec_C6 _ hwf⟩

end Extmark

namespace Extmark

/-- No top-level folder of the list carries the title `X`. -/
def noFolderTitled (ti : String) (l : List BNode) : Bool :=
  l.all (fun n => !(isFolderTitled ti n))

/-- Some top-level leaf of the list carries exactly this title and url. -/
def containsLeaf (l : List BNode) (ti u : String) : Bool :=
  l.any (fun n => match n with
    | .leaf _ ti' u' _ => ti' = ti && u' = u
    | .folder _ _ _ _ => false)

/-- The number of top-level leaves of the list with this title and url. -/
def countLeaf (l : List BNode) (ti u : String) : Nat :=
  l.countP (fun n => match n with
    | .leaf _ ti' u' _ => ti' = ti && u' = u
    | .folder _ _ _ _ => false)

theorem findIdx?_append_found {α : Type} (p : α → Bool) :
    ∀ (l l2 : List α) (st i : Nat), List.findIdx? p l st = some i →
      List.findIdx? p (l ++ l2) st = some i := by
  intro l
  induction l with
  | nil =>
    intro l2 st i h
    cases h
  | cons x xs ih =>
    intro l2 st i h
    rw [List.findIdx?_cons] at h
    rw [List.cons_append, List.findIdx?_cons]
    by_cases hp : p x = true
    · rwa [if_pos hp] at h ⊢
    · rw [if_neg hp] at h ⊢
      exact ih l2 (st + 1) i h

theorem findIdx?_set_eq {α : Type} (p : α → Bool) :
    ∀ (l : List α) (i : Nat) (a e : α), l.get? i = some e → p a = p e →
      ∀ st, List.findIdx? p (l.set i a) st = List.findIdx? p l st := by
  intro l
  induction l with
  | nil =>
    intro i a e h
    simp at h
  | cons x xs ih =>
    intro i a e hget hp st
    cases i with
    | zero =>
      have hx : x = e := by simpa using hget
      subst hx
      rw [List.set_cons_zero, List.findIdx?_cons, List.findIdx?_cons, hp]
    | succ i' =>
      rw [List.set_cons_succ, List.findIdx?_cons, List.findIdx?_cons]
      by_cases hpx : p x = true
      · rw [if_pos hpx, if_pos hpx]
      · rw [if_neg hpx, if_neg hpx]
        exact ih i' a e (by simpa using hget) hp (st + 1)

theorem countP_set_eq {α : Type} (p : α → Bool) :
    ∀ (l : List α) (i : Nat) (a e : α), l.get? i = some e → p a = p e →
      (l.set i a).countP p = l.countP p := by
  intro l
  induction l with
  | nil =>
    intro i a e h
    simp at h
  | cons x xs ih =>
    intro i a e hget hp
    cases i with
    | zero =>
      have hx : x = e := by simpa using hget
      subst hx
      rw [List.set_cons_zero, List.countP_cons, List.countP_cons, hp]
    | succ i' =>
      rw [List.set_cons_succ, List.countP_cons, List.countP_cons,
        ih i' a e (by simpa using hget) hp]

theorem containsLeaf_dup (t : List BNode) (ti u : String)
    (h : isDuplicateBookmark t ti u = true) : containsLeaf t ti u = true := by
  rw [isDuplicateBookmark, List.any_eq_true] at h
  obtain ⟨n, hn, hpred⟩ := h
  rw [containsLeaf, List.any_eq_true]
  refine ⟨n, hn, ?_⟩
  cases n with
  | leaf nid nti nu nd =>
    simp only [Bool.and_eq_true, decide_eq_true_eq] at hpred ⊢
    exact ⟨hpred.2, hpred.1.2⟩
  | folder _ _ _ _ => cases hpred

theorem dup_of_countLeaf (t : List BNode) (ti u : String) (hu : u ≠ "")
    (h : 1 ≤ countLeaf t ti u) : isDuplicateBookmark t ti u = true := by
  rw [countLeaf] at h
  have hpos : 0 < t.countP (fun n => match n with
      | .leaf _ ti' u' _ => ti' = ti && u' = u
      | .folder _ _ _ _ => false) := h
  rw [List.countP_pos] at hpos
  obtain ⟨n, hn, hpred⟩ := hpos
  rw [isDuplicateBookmark, List.any_eq_true]
  refine ⟨n, hn, ?_⟩
  cases n with
  | leaf nid nti nu nd =>
    simp only [Bool.and_eq_true, decide_eq_true_eq] at hpred ⊢
    refine ⟨⟨⟨?_, hu⟩, hpred.2⟩, hpred.1⟩
    rw [hpred.2]
    exact hu
  | folder _ _ _ _ => cases hpred

end Extmark

namespace Extmark

/-- Exhaustive description of what one merge step can do to the target:
leave it unchanged, append the (copied) source node, or overwrite the
first folder sharing the source folder's title with a folder of the same
id, title and date and new children. -/
theorem mergeNode1_cases (t : List BNode) (x : BNode) :
    mergeNode1 t x = t ∨
    (mergeNode1 t x = t ++ [x] ∧
      ((∃ id ti u d, x = .leaf id ti u d ∧ isDuplicateBookmark t ti u = false) ∨
       (∃ id ti ch d, x = .folder id ti ch d ∧
         t.findIdx? (isFolderTitled ti) = none))) ∨
    (∃ xid xti xch xd i fid fch fda ch',
      x = .folder xid xti xch xd ∧
      t.findIdx? (isFolderTitled xti) = some i ∧
      t.get? i = some (.folder fid xti fch fda) ∧
      mergeNode1 t x = t.set i (.folder fid xti ch' fda) ∧
      (xti = "Bookmarks Bar" → ch' = xch) ∧
      (xti ≠ "Bookmarks Bar" → ch' = mergeNodes fch xch)) := by
  cases x with
  | leaf xid xti xu xd =>
    by_cases hdup : isDuplicateBookmark t xti xu = true
    · left
      rw [mergeNode1_leaf, if_pos hdup]
    · right
      left
      refine ⟨by rw [mergeNode1_leaf, if_neg hdup], Or.inl ⟨xid, xti, xu, xd, rfl, ?_⟩⟩
      exact Bool.eq_false_iff.mpr hdup
  | folder xid xti xch xd =>
    cases hf : t.findIdx? (isFolderTitled xti) with
    | none =>
      right
      left
      refine ⟨by rw [mergeNode1_folder, hf], Or.inr ⟨xid, xti, xch, xd, rfl, hf⟩⟩
    | some i =>
      cases hg : t.get? i with
      | none =>
        left
        rw [mergeNode1_folder, hf]
        simp only [hg]
      | some tgt =>
        cases tgt with
        | leaf fid fti fu fda =>
          left
          rw [mergeNode1_folder, hf]
          simp only [hg]
        | folder fid fti fch fda =>
          have hfti : fti = xti := by
            obtain ⟨e, hget, hpe⟩ := (findIdx?_some_get _ t 0 i hf).2
            rw [Nat.sub_zero, hg] at hget
            cases Option.some_inj.mp hget
            simpa [isFolderTitled] using hpe
          subst hfti
          right
          right
          by_cases hbb : fti = "Bookmarks Bar"
          · refine ⟨xid, fti, xch, xd, i, fid, fch, fda, xch, rfl, hf, hg, ?_,
              fun _ => rfl, fun h => absurd hbb h⟩
            rw [mergeNode1_folder, hf]
            simp only [hg, if_pos hbb]
          · refine ⟨xid, fti, xch, xd, i, fid, fch, fda, mergeNodes fch xch,
              rfl, hf, hg, ?_, fun h => absurd h hbb, fun _ => rfl⟩
            rw [mergeNode1_folder, hf]
            simp only [hg, if_neg hbb]

end Extmark

namespace Extmark

theorem noFolderTitled_all (X : String) (l : List BNode)
    (h : noFolderTitled X l = true) :
    ∀ n ∈ l, isFolderTitled X n = false := by
  intro n hn
  rw [noFolderTitled, List.all_eq_true] at h
  have := h n hn
  simpa using this

theorem noFolder_count_zero (X : String) (l : List BNode)
    (h : noFolderTitled X l = true) : l.countP (isFolderTitled X) = 0 := by
  rw [List.countP_eq_zero]
  intro n hn
  simp [noFolderTitled_all X l h n hn]

/-- A source node that is not a folder titled `X` can touch neither the
first-`X` index, nor the record stored there, nor the number of folders
titled `X`. -/
theorem slotX_step (t : List BNode) (x : BNode) (X : String) (i : Nat)
    (fid : Option String) (ca : List BNode) (fda : Option Nat)
    (hx : isFolderTitled X x = false)
    (hfind : t.findIdx? (isFolderTitled X) = some i)
    (hget : t.get? i = some (.folder fid X ca fda)) :
    (mergeNode1 t x).findIdx? (isFolderTitled X) = some i ∧
    (mergeNode1 t x).get? i = some (.folder fid X ca fda) ∧
    (mergeNode1 t x).countP (isFolderTitled X) = t.countP (isFolderTitled X) := by
  obtain ⟨hilen, _⟩ := List.get?_eq_some.mp hget
  rcases mergeNode1_cases t x with heq | ⟨heq, _⟩ |
    ⟨xid, xti, xch, xd, j, gid, gch, gda, ch', hxeq, hfindY, hgetY, heq, _, _⟩
  · rw [heq]
    exact ⟨hfind, hget, rfl⟩
  · rw [heq]
    refine ⟨findIdx?_append_found _ t [x] 0 i hfind, ?_, ?_⟩
    · rw [List.get?_append hilen]
      exact hget
    · rw [List.countP_append]
      simp [List.countP_cons, hx]
  · subst hxeq
    have hXne : xti ≠ X := by
      simpa [isFolderTitled] using hx
    have hij : i ≠ j := by
      intro h
      subst h
      rw [hget] at hgetY
      injection Option.some_inj.mp hgetY with h1 h2 h3 h4
      exact hXne h2.symm
    rw [heq]
    refine ⟨?_, ?_, ?_⟩
    · rw [findIdx?_set_eq (isFolderTitled X) t j (.folder gid xti ch' gda)
        (.folder gid xti gch gda) hgetY rfl 0]
      exact hfind
    · rw [get?_set_other _ hij]
      exact hget
    · exact countP_set_eq _ t j _ _ hgetY rfl

theorem slotX_fold (X : String) (i : Nat) (fid : Option String)
    (ca : List BNode) (fda : Option Nat) :
    ∀ (s t : List BNode), noFolderTitled X s = true →
      t.findIdx? (isFolderTitled X) = some i →
      t.get? i = some (.folder fid X ca fda) →
      (mergeNodes t s).findIdx? (isFolderTitled X) = some i ∧
      (mergeNodes t s).get? i = some (.folder fid X ca fda) ∧
      (mergeNodes t s).countP (isFolderTitled X) = t.countP (isFolderTitled X) := by
  intro s
  induction s with
  | nil =>
    intro t _ hfind hget
    rw [mergeNodes_nil]
    exact ⟨hfind, hget, rfl⟩
  | cons x s' ih =>
    intro t hs hfind hget
    have hx : isFolderTitled X x = false :=
      noFolderTitled_all X (x :: s') hs x (List.mem_cons_self x s')
    have hs' : noFolderTitled X s' = true := by
      rw [noFolderTitled, List.all_eq_true] at hs ⊢
      exact fun n hn => hs n (List.mem_cons_of_mem x hn)
    obtain ⟨h1, h2, h3⟩ := slotX_step t x X i fid ca fda hx hfind hget
    rw [mergeNodes_cons]
    obtain ⟨g1, g2, g3⟩ := ih (mergeNode1 t x) hs' h1 h2
    exact ⟨g1, g2, by rw [g3, h3]⟩

theorem containsLeaf_step (t : List BNode) (x : BNode) (ti u : String)
    (h : containsLeaf t ti u = true) :
    containsLeaf (mergeNode1 t x) ti u = true := by
  rcases mergeNode1_cases t x with heq | ⟨heq, _⟩ |
    ⟨xid, xti, xch, xd, j, gid, gch, gda, ch', hxeq, hfindY, hgetY, heq, _, _⟩
  · rwa [heq]
  · rw [heq]
    simp only [containsLeaf, List.any_eq_true] at h ⊢
    obtain ⟨n, hn, hp⟩ := h
    exact ⟨n, List.mem_append_left _ hn, hp⟩
  · rw [heq]
    simp only [containsLeaf, List.any_eq_true] at h ⊢
    obtain ⟨n, hn, hp⟩ := h
    obtain ⟨k, hk⟩ := List.get?_of_mem hn
    have hkj : k ≠ j := by
      intro hh
      subst hh
      rw [hk] at hgetY
      cases Option.some_inj.mp hgetY
      cases hp
    refine ⟨n, ?_, hp⟩
    exact List.get?_mem (by rw [get?_set_other _ hkj]; exact hk)

theorem containsLeaf_fold (ti u : String) :
    ∀ (s t : List BNode), containsLeaf t ti u = true →
      containsLeaf (mergeNodes t s) ti u = true := by
  intro s
  induction s with
  | nil =>
    intro t h
    rwa [mergeNodes_nil]
  | cons x s' ih =>
    intro t h
    rw [mergeNodes_cons]
    exact ih _ (containsLeaf_step t x ti u h)

theorem containsLeaf_incoming (ti u : String) :
    ∀ (s t : List BNode) (id : Option String) (d : Option Nat),
      BNode.leaf id ti u d ∈ s → containsLeaf (mergeNodes t s) ti u = true := by
  intro s
  induction s with
  | nil =>
    intro t id d hmem
    cases hmem
  | cons x s' ih =>
    intro t id d hmem
    rw [mergeNodes_cons]
    rcases List.mem_cons.mp hmem with rfl | hmem'
    · refine containsLeaf_fold ti u s' _ ?_
      rw [mergeNode1_leaf]
      by_cases hdup : isDuplicateBookmark t ti u = true
      · rw [if_pos hdup]
        exact containsLeaf_dup t ti u hdup
      · rw [if_neg hdup]
        simp only [containsLeaf, List.any_eq_true]
        exact ⟨.leaf id ti u d, List.mem_append_right _ (List.mem_singleton_self _),
          by simp⟩
    · exact ih _ id d hmem'

end Extmark

namespace Extmark

theorem countLeaf_step (t : List BNode) (x : BNode) (ti u : String)
    (hu : u ≠ "") (hc : 1 ≤ countLeaf t ti u) :
    countLeaf (mergeNode1 t x) ti u = countLeaf t ti u := by
  rcases mergeNode1_cases t x with heq | ⟨heq, hcase⟩ |
    ⟨xid, xti, xch, xd, j, gid, gch, gda, ch', hxeq, hfindY, hgetY, heq, _, _⟩
  · rw [heq]
  · rw [heq]
    simp only [countLeaf, List.countP_append]
    rcases hcase with ⟨id, ti', u', d, rfl, hdup⟩ | ⟨id, ti', ch, d, rfl, _⟩
    · have hne : ¬(ti' = ti ∧ u' = u) := by
        rintro ⟨rfl, rfl⟩
        rw [dup_of_countLeaf t ti' u' hu hc] at hdup
        cases hdup
      have hpred2 : (decide (ti' = ti) && decide (u' = u)) = false := by
        by_cases h1 : ti' = ti
        · by_cases h2 : u' = u
          · exact absurd ⟨h1, h2⟩ hne
          · simp [h2]
        · simp [h1]
      simp [List.countP_cons, hpred2]
    · simp [List.countP_cons]
  · rw [heq]
    simp only [countLeaf]
    rw [countP_set_eq (fun n => match n with
        | BNode.leaf _ ti'' u'' _ => ti'' = ti && u'' = u
        | BNode.folder _ _ _ _ => false) t j (.folder gid xti ch' gda)
      (.folder gid xti gch gda) hgetY (by rfl)]

theorem countLeaf_fold (ti u : String) (hu : u ≠ "") :
    ∀ (s t : List BNode), 1 ≤ countLeaf t ti u →
      countLeaf (mergeNodes t s) ti u = countLeaf t ti u := by
  intro s
  induction s with
  | nil =>
    intro t _
    rw [mergeNodes_nil]
  | cons x s' ih =>
    intro t hc
    rw [mergeNodes_cons]
    have h1 := countLeaf_step t x ti u hu hc
    rw [ih (mergeNode1 t x) (by rw [h1]; exact hc), h1]

end Extmark

namespace Extmark

theorem mergeNodes_append (t s1 s2 : List BNode) :
    mergeNodes t (s1 ++ s2) = mergeNodes (mergeNodes t s1) s2 := by
  induction s1 generalizing t with
  | nil => rw [List.nil_append, mergeNodes_nil]
  | cons x s1' ih => rw [List.cons_append, mergeNodes_cons, mergeNodes_cons, ih]

theorem mergeFolder_slot (p1 p2 q1 q2 ca cb : List BNode) (X : String)
    (ida idb : Option String) (da db : Option Nat)
    (hXbb : X ≠ "Bookmarks Bar")
    (hp1 : noFolderTitled X p1 = true) (hp2 : noFolderTitled X p2 = true)
    (hq1 : noFolderTitled X q1 = true) (hq2 : noFolderTitled X q2 = true) :
    (mergeBookmarkTrees (p1 ++ .folder ida X ca da :: p2)
        (q1 ++ .folder idb X cb db :: q2)).get? p1.length =
      some (.folder ida X (mergeNodes ca cb) da) ∧
    (mergeBookmarkTrees (p1 ++ .folder ida X ca da :: p2)
        (q1 ++ .folder idb X cb db :: q2)).countP (isFolderTitled X) = 1 := by
  set base := p1 ++ BNode.folder ida X ca da :: p2 with hbase
  have hget0 : base.get? p1.length = some (.folder ida X ca da) := by
    rw [hbase, List.get?_append_right (Nat.le_refl _)]
    simp
  have hfind0 : base.findIdx? (isFolderTitled X) = some p1.length := by
    have h0 := findIdx?_of (isFolderTitled X) base p1.length (.folder ida X ca da) 0
      hget0 (by simp [isFolderTitled])
      (fun j e hj hgetj => by
        have hj' : base.get? j = p1.get? j := by
          rw [hbase, List.get?_append hj]
        rw [hj'] at hgetj
        exact noFolderTitled_all X p1 hp1 e (List.get?_mem hgetj))
    simpa using h0
  have hcount0 : base.countP (isFolderTitled X) = 1 := by
    rw [hbase, List.countP_append, List.countP_cons]
    rw [noFolder_count_zero X p1 hp1, noFolder_count_zero X p2 hp2]
    simp [isFolderTitled]
  show (mergeNodes base (q1 ++ BNode.folder idb X cb db :: q2)).get? p1.length =
      some (.folder ida X (mergeNodes ca cb) da) ∧
    (mergeNodes base (q1 ++ BNode.folder idb X cb db :: q2)).countP
      (isFolderTitled X) = 1
  rw [mergeNodes_append, mergeNodes_cons]
  obtain ⟨hf1, hg1, hc1⟩ :=
    slotX_fold X p1.length ida ca da q1 base hq1 hfind0 hget0
  have hXstep : mergeNode1 (mergeNodes base q1) (.folder idb X cb db) =
      (mergeNodes base q1).set p1.length
        (.folder ida X (mergeNodes ca cb) da) := by
    rw [mergeNode1_folder, hf1]
    simp only [hg1, if_neg hXbb]
  rw [hXstep]
  have hset_get : ((mergeNodes base q1).set p1.length
      (.folder ida X (mergeNodes ca cb) da)).get? p1.length =
      some (.folder ida X (mergeNodes ca cb) da) := by
    obtain ⟨hlen, _⟩ := List.get?_eq_some.mp hg1
    exact get?_set_self _ hlen
  have hset_find : ((mergeNodes base q1).set p1.length
      (.folder ida X (mergeNodes ca cb) da)).findIdx? (isFolderTitled X) =
      some p1.length := by
    rw [findIdx?_set_eq (isFolderTitled X) _ p1.length
      (.folder ida X (mergeNodes ca cb) da) (.folder ida X ca da) hg1 (by rfl) 0]
    exact hf1
  have hset_count : ((mergeNodes base q1).set p1.length
      (.folder ida X (mergeNodes ca cb) da)).countP (isFolderTitled X) = 1 := by
    rw [countP_set_eq (isFolderTitled X) _ p1.length
      (.folder ida X (mergeNodes ca cb) da) (.folder ida X ca da) hg1 (by rfl)]
    rw [hc1, hcount0]
  obtain ⟨_, hg2, hc2⟩ := slotX_fold X p1.length ida (mergeNodes ca cb) da q2 _
    hq2 hset_find hset_get
  exact ⟨hg2, by rw [hc2, hset_count]⟩

end Extmark

namespace Extmark

/-- **C5** (amended): when each forest holds exactly one top-level folder
titled `X ≠ 'Bookmarks Bar'` (the data-model sibling-title invariant), the
merge keeps a single folder of that title — the base one, in place — whose
children are the recursive merge of both children lists; every leaf from
either side appears at its level, and an incoming leaf whose `(url, title)`
pair already exists at that level *with a non-empty url* is skipped, so its
count there does not grow.  The claim's concrete scenario holds as stated. -/
theorem spec_C5 :
    (∀ (p1 p2 q1 q2 ca cb : List BNode) (X : String) (ida idb : Option String)
        (da db : Option Nat),
      X ≠ "Bookmarks Bar" →
      noFolderTitled X p1 = true → noFolderTitled X p2 = true →
      noFolderTitled X q1 = true → noFolderTitled X q2 = true →
      (mergeBookmarkTrees (p1 ++ .folder ida X ca da :: p2)
          (q1 ++ .folder idb X cb db :: q2)).get? p1.length =
        some (.folder ida X (mergeNodes ca cb) da) ∧
      (mergeBookmarkTrees (p1 ++ .folder ida X ca da :: p2)
          (q1 ++ .folder idb X cb db :: q2)).countP (isFolderTitled X) = 1) ∧
    (∀ (t s : List BNode) (ti u : String), containsLeaf t ti u = true →
      containsLeaf (mergeNodes t s) ti u = true) ∧
    (∀ (s t : List BNode) (id : Option String) (ti u : String) (d : Option Nat),
      BNode.leaf id ti u d ∈ s → containsLeaf (mergeNodes t s) ti u = true) ∧
    (∀ (s t : List BNode) (ti u : String), u ≠ "" → 1 ≤ countLeaf t ti u →
      countLeaf (mergeNodes t s) ti u = countLeaf t ti u) ∧
    mergeBookmarkTrees
        [.folder none "Bar: folder" [.leaf none "A" "http://a" none] none]
        [.folder none "Bar: folder" [.leaf none "B" "http://b" none] none] =
      [.folder none "Bar: folder"
        [.leaf none "A" "http://a" none, .leaf none "B" "http://b" none] none] := by
  refine ⟨?_, ?_, ?_, ?_, ?_⟩
  · intro p1 p2 q1 q2 ca cb X ida idb da db hXbb hp1 hp2 hq1 hq2
    exact mergeFolder_slot p1 p2 q1 q2 ca cb X ida idb da db hXbb hp1 hp2 hq1 hq2
  · intro t s ti u h
    exact containsLeaf_fold ti u s t h
  · intro s t id ti u d hmem
    exact containsLeaf_incoming ti u s t id d hmem
  · intro s t ti u hu hc
    exact countLeaf_fold ti u hu s t hc
  · simp [mergeBookmarkTrees, mergeNodes, isFolderTitled, isDuplicateBookmark,
      List.findIdx?]

/-- **C5 counterexample**: the incoming leaf `("", "A")` — an empty url —
already exists at its level but is *not* skipped (the truthiness check
`t.url && node.url` fails on `""`), so after the merge it occurs twice
under the folder, refuting "is skipped so it occurs exactly once". -/
theorem spec_C5_counterexample :
    mergeBookmarkTrees [.folder none "F" [.leaf none "A" "" none] none]
        [.folder none "F" [.leaf none "A" "" none] none] =
      [.folder none "F" [.leaf none "A" "" none, .leaf none "A" "" none] none] ∧
    countLeaf [.leaf none "A" "" none] "A" "" = 1 ∧
    countLeaf [.leaf none "A" "" none, .leaf none "A" "" none] "A" "" = 2 := by
  refine ⟨?_, by decide, by decide⟩
  simp [mergeBookmarkTrees, mergeNodes, isFolderTitled, isDuplicateBookmark,
    List.findIdx?]

/-- Witness for `spec_C5`: a concrete two-sided merge with surrounding
non-`X` nodes, and a concrete dedup instance. -/
theorem spec_C5_witness :
    (mergeBookmarkTrees
        [.leaf none "L" "w" none, .folder none "F" [.leaf none "A" "u" none] none]
        [.folder none "Q" [] none, .folder none "F" [.leaf none "B" "v" none] none]).get? 1 =
      some (.folder none "F"
        (mergeNodes [.leaf none "A" "u" none] [.leaf none "B" "v" none]) none) ∧
    (mergeBookmarkTrees
        [.leaf none "L" "w" none, .folder none "F" [.leaf none "A" "u" none] none]
        [.folder none "Q" [] none,
         .folder none "F" [.leaf none "B" "v" none] none]).countP
      (isFolderTitled "F") = 1 ∧
    countLeaf (mergeNodes [.leaf none "A" "u" none] [.leaf none "A" "u" none])
      "A" "u" = countLeaf [.leaf none "A" "u" none] "A" "u" := by
  have h := spec_C5.1 [.leaf none "L" "w" none] [] [.folder none "Q" [] none] []
    [.leaf none "A" "u" none] [.leaf none "B" "v" none] "F" none none none none
    (by decide) (by decide) (by decide) (by decide) (by decide)
  refine ⟨h.1, h.2, ?_⟩
  exact spec_C5.2.2.2.1 [.leaf none "A" "u" none] [.leaf none "A" "u" none]
    "A" "u" (by decide) (by decide)

end Extmark
